import Mathlib

/-!
Verification of the task-orchestrator hierarchy store (`src/storage.ts`).

The development shallowly embeds the storage layer: LokiJS collections become
Lists, in-place document mutation becomes functional record update of the
first matching list entry (Loki `findOne` returns the first match and
`update` rewrites that document), thrown exceptions become `Except`, and
`new Date().toISOString()` timestamps become a `Nat` supplied per call.
The per-goal identifier counters (`metadata.nextTaskId`) are embedded as a
total function `Nat → String → Nat`, which is exact because every read in
the source is of the form `(metadata.nextTaskId[goalId][parentKey] || 0)`.
-/

namespace TaskOrch

/-- A task document, translated from the `Task` shape used by `storage.ts`
(string dot-notation id, owning goal id, nullable parent id, flags and
timestamps). -/
structure Task where
  id : String
  goalId : Nat
  parentId : Option String
  title : String
  description : String
  isComplete : Bool
  deleted : Bool
  createdAt : Nat
  updatedAt : Nat
  deriving Repr, DecidableEq

/-- The response shape returned by the storage operations: every field of a
task except `createdAt`, `updatedAt` and `parentId`, which each operation
strips via destructuring before returning. -/
structure TaskResponse where
  id : String
  goalId : Nat
  title : String
  description : String
  isComplete : Bool
  deleted : Bool
  deriving Repr, DecidableEq

instance : Inhabited TaskResponse :=
  ⟨⟨"", 0, "", "", false, false⟩⟩

/-- Projection used everywhere in `storage.ts`:
`const (createdAt, updatedAt, parentId: _, $loki, meta, ...taskResponse) = task`. -/
def Task.toResponse (t : Task) : TaskResponse :=
  ⟨t.id, t.goalId, t.title, t.description, t.isComplete, t.deleted⟩

/-- The entire persistent state of `Storage`: goal count (goal ids are
minted as `goals.count() + 1`), the set of goal ids holding a plan record,
the task collection in insertion order and the `nextTaskId` counters. -/
structure State where
  goalCount : Nat
  plans : List Nat
  tasks : List Task
  counters : Nat → String → Nat

/-- The empty store produced by `initialize()` on a fresh database. -/
def State.init : State :=
  ⟨0, [], [], fun _ _ => 0⟩

/-- Loki `this.tasks.findOne(with goalId, id)`: first matching document. -/
def findTask (s : State) (g : Nat) (i : String) : Option Task :=
  s.tasks.find? fun t => t.goalId == g && t.id == i

/-- Loki `this.tasks.find(with goalId, parentId)`: all direct children,
deleted or not, in insertion order. -/
def childrenAll (s : State) (g : Nat) (pid : String) : List Task :=
  s.tasks.filter fun t => t.goalId == g && t.parentId == some pid

/-- Loki `this.tasks.find(with goalId, parentId, deleted: false)`:
non-deleted direct children in insertion order. -/
def childrenLive (s : State) (g : Nat) (pid : String) : List Task :=
  s.tasks.filter fun t => t.goalId == g && t.parentId == some pid && !t.deleted

/-- In-place mutation of a document found by `findOne` followed by
`collection.update`: rewrite the first entry with the given goal and id. -/
def updTask (g : Nat) (i : String) (f : Task → Task) : List Task → List Task
  | [] => []
  | t :: ts =>
    if t.goalId == g && t.id == i then f t :: ts else t :: updTask g i f ts

/-- The `parentKey` of `addTask`: `"root"` for a null parent, else the
parent's id. -/
def parentKey (pid : Option String) : String :=
  pid.getD "root"

/-- Identifier composition in `addTask`:
`effectiveParentId === null ? String(nextSequence) : parent + "." + nextSequence`. -/
def mkId (pid : Option String) (n : Nat) : String :=
  match pid with
  | none => Nat.repr n
  | some p => p ++ "." ++ Nat.repr n

/-- Errors thrown by the storage layer, by kind. -/
inductive Err where
  | noPlan
  | invalidParent
  | hasChildren
  deriving Repr, DecidableEq

/-- The `create_goal` tool handler: `storage.createGoal` (which assigns id
`goals.count() + 1` and resets that goal's `nextTaskId` entry to
`\x7b root: 0 \x7d`) immediately followed by `storage.createPlan(goal.id)`. -/
def createGoalPlan (s : State) : State :=
  let gid := s.goalCount + 1
  { goalCount := gid
    plans := s.plans ++ [gid]
    tasks := s.tasks
    counters := fun g k => if g == gid then 0 else s.counters g k }

/-- `Storage.addTask` (storage.ts lines 151–203): require a plan, validate
the parent reference (deleted parents allowed), mint
`nextSequence = (counters[goalId][parentKey] || 0) + 1`, persist the new
counter and insert the task with `isComplete := false, deleted := false`. -/
def addTask (s : State) (g : Nat) (pid : Option String)
    (title description : String) (now : Nat) :
    Except Err (State × TaskResponse) :=
  if g ∈ s.plans then
    if pid.elim false (fun p => (findTask s g p).isNone) then .error .invalidParent
    else
      let key := parentKey pid
      let seq := s.counters g key + 1
      let t : Task :=
        ⟨mkId pid seq, g, pid, title, description, false, false, now, now⟩
      .ok ({ s with
              tasks := s.tasks ++ [t]
              counters := fun g' k =>
                if g' == g && k == key then seq else s.counters g' k },
           t.toResponse)
  else .error .noPlan

/-! ### Hierarchical id comparison

Both `removeTasks` and `getTasks` sort with the comparator
`a.split('.').map(Number)` compared segment-by-segment, shorter sequence
first. We embed the split as a structural recursion over the character
list and parse a numeric segment by decimal folding (the claims only ever
involve well-formed numeric segments; a non-numeric segment, `NaN` in the
source, is mapped to an unspecified number by the same fold). -/

/-- Split a character list on `'.'`, matching `String.prototype.split('.')`. -/
def splitDots : List Char → List (List Char)
  | [] => [[]]
  | c :: cs =>
    if c = '.' then [] :: splitDots cs
    else
      match splitDots cs with
      | [] => [[c]]
      | r :: rs => (c :: r) :: rs

/-- Decimal value of a segment (exact for segments made of digits). -/
def parseSeg (cs : List Char) : Nat :=
  cs.foldl (fun a c => a * 10 + (c.toNat - '0'.toNat)) 0

/-- The numeric segment list of an id: `id.split('.').map(Number)`. -/
def segs (i : String) : List Nat :=
  (splitDots i.data).map parseSeg

/-- Segment-wise comparison: first differing segment decides; when one
list is a prefix of the other the shorter one is smaller
(`aParts.length - bParts.length`). -/
def cmpSegs : List Nat → List Nat → Ordering
  | [], [] => .eq
  | [], _ :: _ => .lt
  | _ :: _, [] => .gt
  | a :: as, b :: bs =>
    if a < b then .lt else if b < a then .gt else cmpSegs as bs

/-- The comparator of `removeTasks` on raw id strings, as a
"less-or-equal" test. -/
def idLe (a b : String) : Bool :=
  cmpSegs (segs a) (segs b) ≠ .gt

/-- The comparator of `getTasks` on task documents. -/
def taskLe (a b : Task) : Bool :=
  idLe a.id b.id

/-- Insert into a sorted list, keeping earlier equal elements first. -/
def insertLe (le : α → α → Bool) (a : α) : List α → List α
  | [] => [a]
  | b :: l => if le a b then a :: b :: l else b :: insertLe le a l

/-- Insertion sort; stands in for `Array.prototype.sort` with a consistent
comparator (the claims only require the output to be sorted). -/
def sortBy (le : α → α → Bool) : List α → List α
  | [] => []
  | a :: l => insertLe le a (sortBy le l)

/-- Auxiliary for `dedupFirst`: drop elements already seen. -/
def dedupFirstAux [DecidableEq α] (seen : List α) : List α → List α
  | [] => []
  | a :: l =>
    if a ∈ seen then dedupFirstAux seen l
    else a :: dedupFirstAux (seen ++ [a]) l

/-- Keep the first occurrence of each element, as
`Array.from(new Set(resultTasks))` does for document references. -/
def dedupFirst [DecidableEq α] (l : List α) : List α :=
  dedupFirstAux [] l

/-! ### Completion propagation -/

/-- `Storage.updateParentTaskStatus` (storage.ts lines 205–234): reload the
parent, gather its non-deleted children, and flip its `isComplete` when it
disagrees with `children.length > 0 && children.every(c => c.isComplete)`,
returning the changed parent. -/
def updateParentTaskStatus (s : State) (g : Nat) (pid : Option String)
    (now : Nat) : State × Option TaskResponse :=
  match pid with
  | none => (s, none)
  | some p =>
    match findTask s g p with
    | none => (s, none)
    | some parent =>
      let kids := childrenLive s g p
      let allComplete := !kids.isEmpty && kids.all (·.isComplete)
      if allComplete && !parent.isComplete then
        let parent' := { parent with isComplete := true, updatedAt := now }
        ({ s with tasks := updTask g p (fun u => { u with isComplete := true, updatedAt := now }) s.tasks },
         some parent'.toResponse)
      else if !allComplete && parent.isComplete then
        let parent' := { parent with isComplete := false, updatedAt := now }
        ({ s with tasks := updTask g p (fun u => { u with isComplete := false, updatedAt := now }) s.tasks },
         some parent'.toResponse)
      else (s, none)

/-! ### Soft deletion -/

/-- One call of the inner closure `softDeleteTaskAndSubtasks` of
`Storage.removeTasks` (storage.ts lines 274–297), with explicit fuel for
the recursion (the parent-link chains of any state arising from the store
strictly increase id length, so `tasks.length + 1` fuel is always enough).
The accumulator carries the evolving state, `removedTasks` and the
insertion-ordered `parentsToCheck` set. -/
def rmVisit (g now : Nat) :
    Nat → String → State × List TaskResponse × List String →
    State × List TaskResponse × List String
  | 0, _, acc => acc
  | fuel + 1, tid, (s, removed, parents) =>
    match findTask s g tid with
    | none => (s, removed, parents)
    | some t =>
      let parents :=
        match t.parentId with
        | some p => if p ∈ parents then parents else parents ++ [p]
        | none => parents
      let kidIds := (childrenAll s g tid).map Task.id
      let acc := kidIds.foldl (fun a k => rmVisit g now fuel k a) (s, removed, parents)
      match findTask acc.1 g tid with
      | none => acc
      | some t' =>
        if t'.deleted then acc
        else
          ({ acc.1 with
              tasks := updTask g tid
                (fun u => { u with deleted := true, updatedAt := now }) acc.1.tasks },
           acc.2.1 ++ [({ t' with deleted := true, updatedAt := now } : Task).toResponse],
           acc.2.2)

/-- The parent-status loop run after the mutation passes: in
`removeTasks` it is inlined (storage.ts lines 303–329, the same logic as
`updateParentTaskStatus`), in `completeTasksStatus` it is the loop calling
`updateParentTaskStatus` (lines 389–395); both push any changed parent. -/
def rmRecheck (g now : Nat) (parents : List String)
    (s : State) : State × List TaskResponse :=
  parents.foldl
    (fun (acc : State × List TaskResponse) p =>
      match updateParentTaskStatus acc.1 g (some p) now with
      | (s', some r) => (s', acc.2 ++ [r])
      | (s', none) => (s', acc.2))
    (s, [])

/-- `Storage.removeTasks` (storage.ts lines 236–334) with the internal
`parentsToCheck` set exposed in the result (third component) so that
claims about the recheck set can be stated; `removeTasks` below projects
it away. Sorts the requested ids hierarchically, fails the whole batch
with `hasChildren` when a requested existing task has any direct child
(deleted or not) and `deleteChildren` is false, then soft-deletes
depth-first and runs the parent recheck loop. -/
def removeTasksAll (s : State) (g : Nat) (ids : List String)
    (deleteChildren : Bool) (now : Nat) :
    Except Err (State × List TaskResponse × List String × List TaskResponse) :=
  if g ∈ s.plans then
    let sorted := sortBy idLe ids
    if sorted.any (fun tid =>
        (findTask s g tid).isSome && !(childrenAll s g tid).isEmpty && !deleteChildren) then
      .error .hasChildren
    else
      let fuel := s.tasks.length + 1
      let acc := sorted.foldl (fun a tid => rmVisit g now fuel tid a) (s, [], [])
      let (s', completedParents) := rmRecheck g now acc.2.2 acc.1
      .ok (s', acc.2.1, acc.2.2, completedParents)
  else .error .noPlan

/-- Public shape of `Storage.removeTasks`:
`\x7b removedTasks, completedParents \x7d`. -/
def removeTasks (s : State) (g : Nat) (ids : List String)
    (deleteChildren : Bool) (now : Nat) :
    Except Err (State × List TaskResponse × List TaskResponse) :=
  (removeTasksAll s g ids deleteChildren now).map fun r =>
    (r.1, r.2.1, r.2.2.2)

/-! ### Completion -/

/-- One call of the inner closure `completeTaskAndChildren` of
`Storage.completeTasksStatus` (storage.ts lines 350–383), with fuel.
With `completeChildren` true it first recurses into all direct children —
deleted ones included; otherwise it silently skips the task when some
non-deleted child is incomplete. The accumulator carries the state,
`updatedTasks` and the insertion-ordered `parentsToCheck` set. -/
def ctVisit (g now : Nat) (completeChildren : Bool) :
    Nat → String → State × List TaskResponse × List String →
    State × List TaskResponse × List String
  | 0, _, acc => acc
  | fuel + 1, tid, (s, upd, parents) =>
    match findTask s g tid with
    | none => (s, upd, parents)
    | some _ =>
      if completeChildren then
        let kidIds := (childrenAll s g tid).map Task.id
        let acc := kidIds.foldl (fun a k => ctVisit g now completeChildren fuel k a)
          (s, upd, parents)
        match findTask acc.1 g tid with
        | none => acc
        | some t' =>
          let acc :=
            if !t'.isComplete then
              ({ acc.1 with
                  tasks := updTask g tid
                    (fun u => { u with isComplete := true, updatedAt := now }) acc.1.tasks },
               acc.2.1 ++ [({ t' with isComplete := true, updatedAt := now } : Task).toResponse],
               acc.2.2)
            else acc
          match t'.parentId with
          | some p => (acc.1, acc.2.1, if p ∈ acc.2.2 then acc.2.2 else acc.2.2 ++ [p])
          | none => acc
      else
        let live := childrenLive s g tid
        if !live.all (·.isComplete) then (s, upd, parents)
        else
          match findTask s g tid with
          | none => (s, upd, parents)
          | some t' =>
            let acc :=
              if !t'.isComplete then
                ({ s with
                    tasks := updTask g tid
                      (fun u => { u with isComplete := true, updatedAt := now }) s.tasks },
                 upd ++ [({ t' with isComplete := true, updatedAt := now } : Task).toResponse],
                 parents)
              else (s, upd, parents)
            match t'.parentId with
            | some p => (acc.1, acc.2.1, if p ∈ acc.2.2 then acc.2.2 else acc.2.2 ++ [p])
            | none => acc

/-- `Storage.completeTasksStatus` (storage.ts lines 336–400): process the
requested ids in the given order, then run `updateParentTaskStatus` for
every recorded parent, collecting changed parents. -/
def completeTasksStatus (s : State) (g : Nat) (ids : List String)
    (completeChildren : Bool) (now : Nat) :
    Except Err (State × List TaskResponse × List TaskResponse) :=
  if g ∈ s.plans then
    let fuel := s.tasks.length + 1
    let acc := ids.foldl (fun a tid => ctVisit g now completeChildren fuel tid a)
      (s, [], [])
    let fin := rmRecheck g now acc.2.2 acc.1
    .ok (fin.1, acc.2.1, fin.2)
  else .error .noPlan

/-! ### Query -/

/-- The `includeSubtasks` mode of `getTasks`. -/
inductive Incl where
  | nothing
  | firstLevel
  | recursive
  deriving Repr, DecidableEq

/-- The inner closure `addRecursiveChildren` of `Storage.getTasks`:
pre-order traversal of the (already goal- and deletion-filtered) pool. -/
def grc (pool : List Task) : Nat → String → List Task
  | 0, _ => []
  | fuel + 1, pid =>
    (pool.filter (fun c => c.parentId == some pid)).foldl
      (fun acc c => acc ++ c :: grc pool fuel c.id) []

/-- `Storage.getTasks` (storage.ts lines 402–480): filter by goal and (by
default) by `deleted = false`, select the base set according to `taskIds`
and `includeSubtasks`, deduplicate, sort hierarchically and strip to
responses. -/
def getTasks (s : State) (g : Nat) (taskIds : Option (List String))
    (incl : Incl) (includeDeleted : Bool) : List TaskResponse :=
  let pool0 := s.tasks.filter fun t => t.goalId == g
  let pool := if includeDeleted then pool0 else pool0.filter fun t => !t.deleted
  let ids := taskIds.getD []
  let result :=
    if !ids.isEmpty then
      let initial := pool.filter fun t => ids.contains t.id
      match incl with
      | .nothing => initial
      | .firstLevel =>
        initial ++ initial.foldl
          (fun acc t => acc ++ pool.filter (fun c => c.parentId == some t.id)) []
      | .recursive =>
        initial ++ initial.foldl
          (fun acc t => acc ++ grc pool (pool.length + 1) t.id) []
    else
      match incl with
      | .nothing => pool.filter fun t => t.parentId == none
      | .firstLevel =>
        let tops := pool.filter fun t => t.parentId == none
        tops ++ tops.foldl
          (fun acc t => acc ++ pool.filter (fun c => c.parentId == some t.id)) []
      | .recursive => pool
  ((sortBy taskLe (dedupFirst result)).map Task.toResponse)

/-! ### Reachability, invariants and ghost predicates -/

/-- One public storage operation, as dispatched by the tool handlers:
goal creation (which also creates the plan), task creation, soft deletion
and completion. `getTasks` is read-only and has no step. -/
inductive Step : State → State → Prop
  | goal (s : State) : Step s (createGoalPlan s)
  | add (s : State) (g : Nat) (pid : Option String) (ti de : String) (now : Nat)
      (s' : State) (r : TaskResponse) :
      addTask s g pid ti de now = .ok (s', r) → Step s s'
  | remove (s : State) (g : Nat) (ids : List String) (dc : Bool) (now : Nat)
      (out : State × List TaskResponse × List TaskResponse) :
      removeTasks s g ids dc now = .ok out → Step s out.1
  | complete (s : State) (g : Nat) (ids : List String) (cc : Bool) (now : Nat)
      (out : State × List TaskResponse × List TaskResponse) :
      completeTasksStatus s g ids cc now = .ok out → Step s out.1

/-- States reachable from a fresh store by public operations. -/
inductive Reachable : State → Prop
  | init : Reachable State.init
  | step {s s'} : Reachable s → Step s s' → Reachable s'

/-- The structural invariant of the store: every task id was minted from
its parent id and a sequence bounded by the stored counter, task goal ids
are bounded by the goal count (as are plan ids), and `(goalId, id)` is a
key. -/
structure Inv (s : State) : Prop where
  seqBound : ∀ t ∈ s.tasks, ∃ n, 0 < n ∧ n ≤ s.counters t.goalId (parentKey t.parentId) ∧
    t.id = mkId t.parentId n
  goalBound : ∀ t ∈ s.tasks, t.goalId ≤ s.goalCount
  planBound : ∀ g ∈ s.plans, g ≤ s.goalCount
  keyed : s.tasks.Pairwise fun a b => a.goalId = b.goalId → a.id ≠ b.id

/-- Ghost predicate: task `t` is reached from the task named by id `i` by
a chain of `k` parent links (so it is visited at depth `k` by the
depth-first traversals of `removeTasks` and `completeTasksStatus`). -/
inductive DescN (s : State) (g : Nat) : Nat → String → Task → Prop
  | head (i : String) (t : Task) : findTask s g i = some t → DescN s g 0 i t
  | child {k i t} (u : Task) : DescN s g k i t → u ∈ s.tasks → u.goalId = g →
      u.parentId = some t.id → DescN s g (k + 1) i u

/-! ### Concrete execution traces

Shared concrete states used by counterexamples and witnesses; each is the
result of running the public operations from the fresh store. -/

/-- Extract the payload of a successful call (total helper for traces). -/
def getOk (e : Except Err α) (d : α) : α :=
  match e with
  | .ok v => v
  | .error _ => d

/-- The error of a failed call, if any. -/
def errOf (e : Except Err α) : Option Err :=
  match e with
  | .ok _ => none
  | .error x => some x

/-- Fallback payload for `addTask` extractions. -/
def dfltAdd : State × TaskResponse := (State.init, default)

/-- Fallback payload for `removeTasks`/`completeTasksStatus` extractions. -/
def dfltRm : State × List TaskResponse × List TaskResponse := (State.init, [], [])

/-- Goal 1 with an empty plan. -/
def sG : State := createGoalPlan State.init

/-- One top-level task `"1"`. -/
def sA1 : State := (getOk (addTask sG 1 none "a" "a" 1) dfltAdd).1

/-- Tasks `"1"` and child `"1.1"`. -/
def sA2 : State := (getOk (addTask sA1 1 (some "1") "b" "b" 2) dfltAdd).1

/-- After soft-deleting the leaf `"1.1"`: `"1"` has one deleted child. -/
def stC2 : State := (getOk (removeTasks sA2 1 ["1.1"] false 3) dfltRm).1

/-- After completing `"1.1"`: the propagator has auto-completed `"1"`. -/
def c3a : State := (getOk (completeTasksStatus sA2 1 ["1.1"] false 3) dfltRm).1

/-- After adding the incomplete child `"1.2"` under the complete `"1"`. -/
def stC3 : State := (getOk (addTask c3a 1 (some "1") "c" "c" 4) dfltAdd).1

/-- After adding a further incomplete child `"1.3"`. -/
def stC5 : State := (getOk (addTask stC3 1 (some "1") "d" "d" 5) dfltAdd).1

/-- The full run of `completeTasksStatus` on `["1", "1.2"]` from `stC5`. -/
def runC5 : State × List TaskResponse × List TaskResponse :=
  getOk (completeTasksStatus stC5 1 ["1", "1.2"] false 6) dfltRm

/-- Three-level chain `"1"`, `"1.1"`, `"1.1.1"`. -/
def sA3 : State := (getOk (addTask sA2 1 (some "1.1") "c" "c" 3) dfltAdd).1

/-- The chain fully completed via `completeChildren`. -/
def stC6 : State := (getOk (completeTasksStatus sA3 1 ["1"] true 4) dfltRm).1

/-- The full run (with exposed `parentsToCheck`) of deleting the complete
chain root. -/
def runC6 : State × List TaskResponse × List String × List TaskResponse :=
  getOk (removeTasksAll stC6 1 ["1"] true 5) (State.init, [], [], [])

/-- Both `"1"` and `"1.1"` soft-deleted (recursively). -/
def stC7 : State := (getOk (removeTasks sA2 1 ["1"] true 3) dfltRm).1

/-- From `sA3`, the subtree `"1.1"`, `"1.1.1"` soft-deleted. -/
def stC10 : State := (getOk (removeTasks sA3 1 ["1.1"] true 4) dfltRm).1

/-- The full run of `completeTasksStatus(["1"], completeChildren := true)`
from `stC10`. -/
def runC10 : State × List TaskResponse × List TaskResponse :=
  getOk (completeTasksStatus stC10 1 ["1"] true 5) dfltRm

/-! ### Relations used to track what the mutating passes may change -/

/-- Two task records that agree on every field a flag update preserves. -/
def ShapeEq (a b : Task) : Prop :=
  a.id = b.id ∧ a.goalId = b.goalId ∧ a.parentId = b.parentId ∧
  a.title = b.title ∧ a.description = b.description ∧ a.createdAt = b.createdAt

/-- What one record may become during the deletion traversal of
`removeTasks`: completion untouched, and an already-deleted record is left
exactly as it is. -/
def RmRel (a b : Task) : Prop :=
  ShapeEq a b ∧ a.isComplete = b.isComplete ∧ (a.deleted = true → b = a)

/-- What one record may become during the traversal of
`completeTasksStatus` with timestamp `now`: deletion untouched, an
already-complete record is left exactly as it is, and a record that gets
completed has its `updatedAt` set to `now`. -/
def CtRel (now : Nat) (a b : Task) : Prop :=
  ShapeEq a b ∧ a.deleted = b.deleted ∧ (a.isComplete = true → b = a) ∧
  (a.isComplete = false → b.isComplete = true → b.updatedAt = now)

/-- What one record may become during a parent-recheck pass over the ids
`ps` for goal `g`: untouched unless it is one of the rechecked parents, in
which case only its completion flag and timestamp move. -/
def RcRel (g now : Nat) (ps : List String) (a b : Task) : Prop :=
  b = a ∨ (a.goalId = g ∧ a.id ∈ ps ∧ ShapeEq a b ∧ a.deleted = b.deleted ∧
    b.updatedAt = now)

/-- The non-task components of the state are unchanged. -/
def TasksOnly (s s' : State) : Prop :=
  s'.goalCount = s.goalCount ∧ s'.plans = s.plans ∧ s'.counters = s.counters

/-- Bookkeeping invariant carried through the deletion traversal of
`removeTasks`, relative to the pass's start state `s0`. -/
def RmP (g : Nat) (s0 : State) (acc : State × List TaskResponse × List String) : Prop :=
  List.Forall₂ RmRel s0.tasks acc.1.tasks ∧ TasksOnly s0 acc.1 ∧
  (∀ p ∈ acc.2.2, ∃ u ∈ s0.tasks, u.goalId = g ∧ u.parentId = some p) ∧
  (∀ r ∈ acc.2.1, ∃ a ∈ s0.tasks, a.goalId = g ∧ a.id = r.id ∧ a.deleted = false)

/-- Bookkeeping invariant carried through the completion traversal of
`completeTasksStatus`, relative to the pass's start state `s0`. -/
def CtP (g now : Nat) (s0 : State) (acc : State × List TaskResponse × List String) : Prop :=
  List.Forall₂ (CtRel now) s0.tasks acc.1.tasks ∧ TasksOnly s0 acc.1 ∧
  (∀ p ∈ acc.2.2, ∃ u ∈ s0.tasks, u.goalId = g ∧ u.parentId = some p) ∧
  (∀ r ∈ acc.2.1, ∃ a ∈ s0.tasks, a.goalId = g ∧ a.id = r.id ∧
    a.isComplete = false ∧ r.isComplete = true)

/-- An `updatedTasks` entry reporting the task `i` as completed. -/
def HasEntry (i : String) (acc : State × List TaskResponse × List String) : Prop :=
  ∃ r ∈ acc.2.1, r.id = i ∧ r.isComplete = true

/-- If the record keyed `(g, i)` is currently complete, `updatedTasks`
already reports it: the traversal of `completeTasksStatus` only completes
a record together with pushing its response. -/
def CompEntry (g : Nat) (i : String)
    (acc : State × List TaskResponse × List String) : Prop :=
  ∀ x, findTask acc.1 g i = some x → x.isComplete = true → HasEntry i acc

/-! ## Generic list lemmas -/

theorem foldl_pres_mem {α β : Type} {P : β → Prop} {f : β → α → β} :
    ∀ (l : List α), (∀ b, ∀ a ∈ l, P b → P (f b a)) → ∀ b, P b → P (l.foldl f b)
  | [], _, _, hb => hb
  | a :: l, h, b, hb =>
    foldl_pres_mem l (fun b' a' ha' => h b' a' (List.mem_cons_of_mem _ ha'))
      (f b a) (h b a (List.mem_cons_self a l) hb)

theorem forall₂_comp {α : Type} {R S T : α → α → Prop}
    (h : ∀ a b c, R a b → S b c → T a c) :
    ∀ {l1 l2 l3 : List α}, List.Forall₂ R l1 l2 → List.Forall₂ S l2 l3 →
      List.Forall₂ T l1 l3
  | _, _, _, .nil, .nil => .nil
  | _, _, _, .cons r hr, .cons q hq => .cons (h _ _ _ r q) (forall₂_comp h hr hq)

theorem forall₂_self {α : Type} {R : α → α → Prop} (h : ∀ a, R a a) :
    ∀ l : List α, List.Forall₂ R l l
  | [] => .nil
  | a :: l => .cons (h a) (forall₂_self h l)

theorem forall₂_mem_right {α β : Type} {R : α → β → Prop} :
    ∀ {l1 : List α} {l2 : List β}, List.Forall₂ R l1 l2 → ∀ {b}, b ∈ l2 →
      ∃ a ∈ l1, R a b := by
  intro l1 l2 h
  induction h with
  | nil => intro b hb; cases hb
  | cons r _ ih =>
    intro b hb
    rcases List.mem_cons.mp hb with h1 | h1
    · subst h1; exact ⟨_, List.mem_cons_self _ _, r⟩
    · obtain ⟨a, ha, hab⟩ := ih h1
      exact ⟨a, List.mem_cons_of_mem _ ha, hab⟩

/-- The rewrite performed by `updTask` when `findOne` succeeds: every entry
is untouched except the found (first matching) document, which becomes
`f` of itself. -/
theorem updTask_spec {g : Nat} {i : String} {t : Task} (f : Task → Task) :
    ∀ {l : List Task}, l.find? (fun u => u.goalId == g && u.id == i) = some t →
      List.Forall₂ (fun a b => b = a ∨ (a = t ∧ b = f a)) l (updTask g i f l) := by
  intro l
  induction l with
  | nil => intro h; simp at h
  | cons u us ih =>
    intro h
    by_cases hp : (u.goalId == g && u.id == i) = true
    · simp only [List.find?_cons, hp] at h
      injection h with h
      simp only [updTask, if_pos hp]
      exact .cons (Or.inr ⟨h, rfl⟩)
        (forall₂_self (R := fun a b => b = a ∨ (a = t ∧ b = f a))
          (fun a => Or.inl rfl) us)
    · rw [Bool.not_eq_true] at hp
      simp only [List.find?_cons, hp] at h
      have hn : ¬(u.goalId == g && u.id == i) = true := by simp [hp]
      simp only [updTask, if_neg hn]
      exact .cons (Or.inl rfl) (ih h)

theorem shapeEq_refl (a : Task) : ShapeEq a a := ⟨rfl, rfl, rfl, rfl, rfl, rfl⟩

theorem shapeEq_trans {a b c : Task} (h1 : ShapeEq a b) (h2 : ShapeEq b c) :
    ShapeEq a c := by
  obtain ⟨e1, e2, e3, e4, e5, e6⟩ := h1
  obtain ⟨f1, f2, f3, f4, f5, f6⟩ := h2
  exact ⟨e1.trans f1, e2.trans f2, e3.trans f3, e4.trans f4, e5.trans f5, e6.trans f6⟩

theorem rmRel_refl (a : Task) : RmRel a a :=
  ⟨shapeEq_refl a, rfl, fun _ => rfl⟩

/-! ## Decimal rendering: `String(n)` is injective and dot-free

`addTask` composes ids with `String(nextSequence)`, i.e. `Nat.repr`; the
claims about identifier freshness need that distinct sequences give
distinct (and dot-free) decimal strings. -/

theorem toDigitsCore_eq (fuel : Nat) :
    ∀ (n : Nat) (ds : List Char), n < 10 ^ (fuel + 1) →
      Nat.toDigitsCore 10 (fuel + 1) n ds =
        (if n = 0 then ['0'] else ((Nat.digits 10 n).reverse.map Nat.digitChar)) ++ ds := by
  induction fuel with
  | zero =>
    intro n ds hn
    have h10 : n / 10 = 0 := Nat.div_eq_of_lt (by simpa using hn)
    simp only [Nat.toDigitsCore, h10, if_pos]
    by_cases h0 : n = 0
    · subst h0; simp [Nat.digitChar]
    · rw [if_neg h0]
      have hd : Nat.digits 10 n = [n % 10] := by
        rw [Nat.digits_def' (by norm_num : (1:ℕ) < 10) (Nat.pos_of_ne_zero h0), h10]
        simp
      rw [hd]; simp
  | succ f ih =>
    intro n ds hn
    by_cases hq : n / 10 = 0
    · simp only [Nat.toDigitsCore, hq, if_pos]
      by_cases h0 : n = 0
      · subst h0; simp [Nat.digitChar]
      · rw [if_neg h0]
        have hd : Nat.digits 10 n = [n % 10] := by
          rw [Nat.digits_def' (by norm_num : (1:ℕ) < 10) (Nat.pos_of_ne_zero h0), hq]
          simp
        rw [hd]; simp
    · have hpos : 0 < n := by
        rcases Nat.eq_zero_or_pos n with h | h
        · exact absurd (by simp [h]) hq
        · exact h
      have hlt : n / 10 < 10 ^ (f + 1) := by
        rw [Nat.div_lt_iff_lt_mul (by norm_num)]
        calc n < 10 ^ (f + 1 + 1) := hn
          _ = 10 ^ (f + 1) * 10 := by ring
      have ih' := ih (n / 10) (Nat.digitChar (n % 10) :: ds) hlt
      simp only [Nat.toDigitsCore] at ih'
      simp only [Nat.toDigitsCore, hq, if_neg, if_false]
      rw [ih']
      rw [Nat.digits_def' (by norm_num : (1:ℕ) < 10) hpos]
      rw [if_neg (Nat.pos_iff_ne_zero.mp hpos), if_neg hq]
      simp

theorem repr_eq_digits (n : Nat) :
    Nat.repr n =
      ((if n = 0 then ['0'] else ((Nat.digits 10 n).reverse.map Nat.digitChar))).asString := by
  show (Nat.toDigitsCore 10 (n + 1) n []).asString = _
  rw [toDigitsCore_eq n n []
    (lt_of_lt_of_le (Nat.lt_pow_self (by norm_num) n)
      (Nat.pow_le_pow_right (by norm_num) (Nat.le_succ n)))]
  simp

theorem digitChar_inj_lt :
    ∀ a, a < 10 → ∀ b, b < 10 → Nat.digitChar a = Nat.digitChar b → a = b := by
  decide

theorem digitChar_ne_dot : ∀ a, a < 10 → Nat.digitChar a ≠ '.' := by
  decide

theorem map_digitChar_inj :
    ∀ l1 l2 : List Nat, (∀ x ∈ l1, x < 10) → (∀ x ∈ l2, x < 10) →
      l1.map Nat.digitChar = l2.map Nat.digitChar → l1 = l2
  | [], [], _, _, _ => rfl
  | [], _ :: _, _, _, h => by simp at h
  | _ :: _, [], _, _, h => by simp at h
  | a :: l1, b :: l2, h1, h2, h => by
    simp only [List.map_cons, List.cons.injEq] at h
    have ha := h1 a (List.mem_cons_self _ _)
    have hb := h2 b (List.mem_cons_self _ _)
    rw [digitChar_inj_lt a ha b hb h.1,
      map_digitChar_inj l1 l2 (fun x hx => h1 x (List.mem_cons_of_mem _ hx))
        (fun x hx => h2 x (List.mem_cons_of_mem _ hx)) h.2]

theorem repr_injective : ∀ m n : Nat, Nat.repr m = Nat.repr n → m = n := by
  have key : ∀ k : Nat, k ≠ 0 →
      (Nat.digits 10 k).reverse.map Nat.digitChar ≠ ['0'] := by
    intro k hk h
    have hlen : (Nat.digits 10 k).reverse.length = 1 := by
      have := congrArg List.length h; simpa using this
    obtain ⟨d, hd⟩ : ∃ d, (Nat.digits 10 k).reverse = [d] := by
      cases hrev : (Nat.digits 10 k).reverse with
      | nil => rw [hrev] at hlen; simp at hlen
      | cons x xs =>
        rw [hrev] at hlen
        simp at hlen
        exact ⟨x, by subst hlen; rfl⟩
    have hdig : Nat.digits 10 k = [d] := by
      have := congrArg List.reverse hd; simpa using this
    have hd10 : d < 10 :=
      Nat.digits_lt_base (by norm_num) (by rw [hdig]; exact List.mem_cons_self _ _)
    rw [hd] at h
    simp only [List.map_cons, List.map_nil, List.cons.injEq] at h
    have hd0 : d = 0 := digitChar_inj_lt d hd10 0 (by norm_num) (by simpa using h.1)
    have h2 := Nat.ofDigits_digits 10 k
    rw [hdig, hd0] at h2
    exact hk (by simpa [Nat.ofDigits] using h2.symm)
  intro m n h
  rw [repr_eq_digits, repr_eq_digits] at h
  have hdata : (if m = 0 then ['0'] else ((Nat.digits 10 m).reverse.map Nat.digitChar)) =
      (if n = 0 then ['0'] else ((Nat.digits 10 n).reverse.map Nat.digitChar)) := by
    have := congrArg String.data h
    simpa [List.asString] using this
  by_cases hm : m = 0 <;> by_cases hn : n = 0
  · rw [hm, hn]
  · rw [if_pos hm, if_neg hn] at hdata
    exact absurd hdata.symm (key n hn)
  · rw [if_neg hm, if_pos hn] at hdata
    exact absurd hdata (key m hm)
  · rw [if_neg hm, if_neg hn] at hdata
    have hrev : (Nat.digits 10 m).reverse = (Nat.digits 10 n).reverse :=
      map_digitChar_inj _ _
        (fun x hx => Nat.digits_lt_base (by norm_num) (List.mem_reverse.mp hx))
        (fun x hx => Nat.digits_lt_base (by norm_num) (List.mem_reverse.mp hx)) hdata
    have hdig : Nat.digits 10 m = Nat.digits 10 n := by
      have := congrArg List.reverse hrev; simpa using this
    calc m = Nat.ofDigits 10 (Nat.digits 10 m) := (Nat.ofDigits_digits 10 m).symm
      _ = Nat.ofDigits 10 (Nat.digits 10 n) := by rw [hdig]
      _ = n := Nat.ofDigits_digits 10 n

theorem dot_split_unique :
    ∀ (a1 a2 b1 b2 : List Char), (∀ c ∈ a1, c ≠ '.') → (∀ c ∈ a2, c ≠ '.') →
      a1 ++ '.' :: b1 = a2 ++ '.' :: b2 → a1 = a2 ∧ b1 = b2 := by
  intro a1
  induction a1 with
  | nil =>
    intro a2 b1 b2 _ h2 h
    cases a2 with
    | nil => simpa using h
    | cons d ds =>
      simp only [List.nil_append, List.cons_append, List.cons.injEq] at h
      exact absurd h.1.symm (h2 d (List.mem_cons_self _ _))
  | cons c cs ih =>
    intro a2 b1 b2 h1 h2 h
    cases a2 with
    | nil =>
      simp only [List.nil_append, List.cons_append, List.cons.injEq] at h
      exact absurd h.1 (h1 c (List.mem_cons_self _ _))
    | cons d ds =>
      simp only [List.cons_append, List.cons.injEq] at h
      obtain ⟨hcd, hrest⟩ := h
      obtain ⟨he, hb⟩ := ih ds b1 b2 (fun x hx => h1 x (List.mem_cons_of_mem _ hx))
        (fun x hx => h2 x (List.mem_cons_of_mem _ hx)) hrest
      exact ⟨by rw [hcd, he], hb⟩

theorem repr_no_dot : ∀ n : Nat, ∀ c ∈ (Nat.repr n).data, c ≠ '.' := by
  intro n c hc
  rw [repr_eq_digits] at hc
  have hc' : c ∈ (if n = 0 then ['0'] else ((Nat.digits 10 n).reverse.map Nat.digitChar)) := by
    simpa [List.asString] using hc
  by_cases h0 : n = 0
  · rw [if_pos h0] at hc'
    simp at hc'
    rw [hc']; decide
  · rw [if_neg h0] at hc'
    obtain ⟨d, hd, hdc⟩ := List.mem_map.mp hc'
    have : d < 10 := Nat.digits_lt_base (by norm_num) (List.mem_reverse.mp hd)
    rw [← hdc]
    exact digitChar_ne_dot d this

theorem mkId_data (p : String) (n : Nat) :
    (mkId (some p) n).data = p.data ++ '.' :: (Nat.repr n).data := by
  show ((p ++ "." ++ Nat.repr n)).data = _
  rw [String.data_append, String.data_append]
  simp

/-- Identifier composition is injective: a minted id determines both the
parent key it was minted under and the sequence number. -/
theorem mkId_inj : ∀ {p1 p2 : Option String} {m n : Nat},
    mkId p1 m = mkId p2 n → p1 = p2 ∧ m = n := by
  have absdot : ∀ (q : String) (k j : Nat), Nat.repr k = mkId (some q) j → False := by
    intro q k j h
    have hd : (Nat.repr k).data = q.data ++ '.' :: (Nat.repr j).data := by
      rw [h, mkId_data]
    exact repr_no_dot k '.'
      (hd ▸ List.mem_append.mpr (Or.inr (List.mem_cons_self _ _))) rfl
  intro p1 p2 m n h
  match p1, p2 with
  | none, none => exact ⟨rfl, repr_injective m n h⟩
  | none, some q => exact absurd h (fun h => absdot q m n h)
  | some q, none => exact absurd h.symm (fun h => absdot q n m h)
  | some q1, some q2 =>
    have hd : q1.data ++ '.' :: (Nat.repr m).data
        = q2.data ++ '.' :: (Nat.repr n).data := by
      rw [← mkId_data, ← mkId_data, h]
    have hrev : (Nat.repr m).data.reverse ++ '.' :: q1.data.reverse
        = (Nat.repr n).data.reverse ++ '.' :: q2.data.reverse := by
      have := congrArg List.reverse hd
      simpa [List.reverse_append] using this
    obtain ⟨hr, hq⟩ := dot_split_unique _ _ _ _
      (fun c hc => repr_no_dot m c (List.mem_reverse.mp hc))
      (fun c hc => repr_no_dot n c (List.mem_reverse.mp hc)) hrev
    refine ⟨?_, repr_injective m n (String.ext (List.reverse_inj.mp hr))⟩
    rw [String.ext (List.reverse_inj.mp hq)]

/-! ## The hierarchical comparator is a total preorder, and sorting works -/

theorem cmpSegs_nil_left : ∀ z : List Nat, cmpSegs [] z ≠ .gt := by
  intro z; cases z <;> simp [cmpSegs]

theorem cmpSegs_cons_ne_gt {a b : Nat} {as bs : List Nat} :
    cmpSegs (a :: as) (b :: bs) ≠ .gt ↔ a < b ∨ (a = b ∧ cmpSegs as bs ≠ .gt) := by
  simp only [cmpSegs]
  split_ifs with h1 h2
  · simp [h1]
  · constructor
    · intro h; exact absurd rfl h
    · rintro (h | ⟨h, -⟩)
      · exact absurd h h1
      · subst h; exact absurd h2 (lt_irrefl a)
  · have he : a = b := by omega
    simp [he, lt_irrefl]

theorem cmpSegs_total : ∀ x y : List Nat, cmpSegs x y ≠ .gt ∨ cmpSegs y x ≠ .gt := by
  intro x
  induction x with
  | nil => intro y; exact Or.inl (cmpSegs_nil_left y)
  | cons a as ih =>
    intro y
    cases y with
    | nil => exact Or.inr (cmpSegs_nil_left _)
    | cons b bs =>
      rcases Nat.lt_trichotomy a b with h | h | h
      · exact Or.inl (cmpSegs_cons_ne_gt.mpr (Or.inl h))
      · subst h
        rcases ih bs with hh | hh
        · exact Or.inl (cmpSegs_cons_ne_gt.mpr (Or.inr ⟨rfl, hh⟩))
        · exact Or.inr (cmpSegs_cons_ne_gt.mpr (Or.inr ⟨rfl, hh⟩))
      · exact Or.inr (cmpSegs_cons_ne_gt.mpr (Or.inl h))

theorem cmpSegs_trans : ∀ x y z : List Nat,
    cmpSegs x y ≠ .gt → cmpSegs y z ≠ .gt → cmpSegs x z ≠ .gt := by
  intro x
  induction x with
  | nil => intro y z _ _; exact cmpSegs_nil_left z
  | cons a as ih =>
    intro y z h1 h2
    cases y with
    | nil => exact absurd rfl h1
    | cons b bs =>
      cases z with
      | nil => exact absurd rfl h2
      | cons c cs =>
        rw [cmpSegs_cons_ne_gt] at h1 h2 ⊢
        rcases h1 with h1 | ⟨h1, h1r⟩ <;> rcases h2 with h2 | ⟨h2, h2r⟩
        · exact Or.inl (h1.trans h2)
        · exact Or.inl (h2 ▸ h1)
        · exact Or.inl (h1 ▸ h2)
        · exact Or.inr ⟨h1.trans h2, ih bs cs h1r h2r⟩

theorem idLe_total (a b : String) : idLe a b = true ∨ idLe b a = true := by
  rcases cmpSegs_total (segs a) (segs b) with h | h
  · exact Or.inl (by simpa [idLe] using h)
  · exact Or.inr (by simpa [idLe] using h)

theorem idLe_trans {a b c : String} (h1 : idLe a b = true) (h2 : idLe b c = true) :
    idLe a c = true := by
  simp only [idLe, ne_eq, decide_eq_true_eq] at h1 h2 ⊢
  exact cmpSegs_trans _ _ _ h1 h2

theorem taskLe_total (a b : Task) : taskLe a b = true ∨ taskLe b a = true :=
  idLe_total a.id b.id

theorem taskLe_trans {a b c : Task} (h1 : taskLe a b = true)
    (h2 : taskLe b c = true) : taskLe a c = true :=
  idLe_trans h1 h2

theorem insertLe_perm (le : α → α → Bool) (a : α) :
    ∀ l : List α, List.Perm (insertLe le a l) (a :: l) := by
  intro l
  induction l with
  | nil => simp [insertLe]
  | cons b l ih =>
    simp only [insertLe]
    split_ifs
    · exact .refl _
    · exact .trans (.cons b ih) (.swap a b l)

theorem sortBy_perm (le : α → α → Bool) :
    ∀ l : List α, List.Perm (sortBy le l) l := by
  intro l
  induction l with
  | nil => exact .refl _
  | cons a l ih => exact .trans (insertLe_perm le a _) (.cons a ih)

theorem insertLe_sorted {le : α → α → Bool}
    (total : ∀ a b, le a b = true ∨ le b a = true)
    (htr : ∀ {a b c}, le a b = true → le b c = true → le a c = true)
    (a : α) : ∀ l : List α, List.Pairwise (fun x y => le x y = true) l →
      List.Pairwise (fun x y => le x y = true) (insertLe le a l) := by
  intro l
  induction l with
  | nil => intro _; simp [insertLe]
  | cons b l ih =>
    intro hp
    rcases List.pairwise_cons.mp hp with ⟨hb, hl⟩
    simp only [insertLe]
    split_ifs with hab
    · refine List.pairwise_cons.mpr ⟨?_, hp⟩
      intro x hx
      rcases List.mem_cons.mp hx with h | h
      · exact h ▸ hab
      · exact htr hab (hb x h)
    · refine List.pairwise_cons.mpr ⟨?_, ih hl⟩
      intro x hx
      have hx' := (insertLe_perm le a l).mem_iff.mp hx
      rcases List.mem_cons.mp hx' with h | h
      · subst h
        rcases total b x with hbx | hxb
        · exact hbx
        · exact absurd hxb hab
      · exact hb x h

theorem sortBy_sorted {le : α → α → Bool}
    (total : ∀ a b, le a b = true ∨ le b a = true)
    (htr : ∀ {a b c}, le a b = true → le b c = true → le a c = true) :
    ∀ l : List α, List.Pairwise (fun x y => le x y = true) (sortBy le l) := by
  intro l
  induction l with
  | nil => simp [sortBy]
  | cons a l ih => exact insertLe_sorted total htr a _ ih

theorem dedupFirstAux_subset [DecidableEq α] :
    ∀ (l seen : List α) (x : α), x ∈ dedupFirstAux seen l → x ∈ l := by
  intro l
  induction l with
  | nil => intro seen x h; cases h
  | cons a l ih =>
    intro seen x h
    simp only [dedupFirstAux] at h
    split_ifs at h
    · exact List.mem_cons_of_mem _ (ih _ _ h)
    · rcases List.mem_cons.mp h with h | h
      · exact h ▸ List.mem_cons_self _ _
      · exact List.mem_cons_of_mem _ (ih _ _ h)

theorem dedupFirstAux_not_seen [DecidableEq α] :
    ∀ (l seen : List α) (x : α), x ∈ dedupFirstAux seen l → x ∉ seen := by
  intro l
  induction l with
  | nil => intro seen x h; cases h
  | cons a l ih =>
    intro seen x h
    simp only [dedupFirstAux] at h
    split_ifs at h with ha
    · exact ih _ _ h
    · rcases List.mem_cons.mp h with h | h
      · exact h ▸ ha
      · intro hx
        exact ih _ _ h (List.mem_append.mpr (Or.inl hx))

theorem dedupFirstAux_nodup [DecidableEq α] :
    ∀ (l seen : List α), (dedupFirstAux seen l).Nodup := by
  intro l
  induction l with
  | nil => intro seen; exact List.nodup_nil
  | cons a l ih =>
    intro seen
    simp only [dedupFirstAux]
    split_ifs
    · exact ih _
    · refine List.nodup_cons.mpr ⟨?_, ih _⟩
      intro ha
      exact dedupFirstAux_not_seen l (seen ++ [a]) a ha
        (List.mem_append.mpr (Or.inr (List.mem_cons_self _ _)))

theorem dedupFirst_nodup [DecidableEq α] (l : List α) : (dedupFirst l).Nodup :=
  dedupFirstAux_nodup l []

theorem dedupFirst_subset [DecidableEq α] {l : List α} {x : α}
    (h : x ∈ dedupFirst l) : x ∈ l :=
  dedupFirstAux_subset l [] x h

theorem ctRel_refl (now : Nat) (a : Task) : CtRel now a a :=
  ⟨shapeEq_refl a, rfl, fun _ => rfl, fun h1 h2 => absurd (h1 ▸ h2) (by simp)⟩

/-! ## What the mutating passes can and cannot change -/

theorem findTask_pred {s : State} {g : Nat} {i : String} {t : Task}
    (h : findTask s g i = some t) : t ∈ s.tasks ∧ t.goalId = g ∧ t.id = i := by
  unfold findTask at h
  refine ⟨List.mem_of_find?_eq_some h, ?_⟩
  have hp := List.find?_some h
  simp only [Bool.and_eq_true, beq_iff_eq] at hp
  exact hp

theorem rmRel_upd {a b : Task} {now : Nat} (h : RmRel a b)
    (hdel : b.deleted = false) :
    RmRel a { b with deleted := true, updatedAt := now } := by
  obtain ⟨hs, hc, hd⟩ := h
  refine ⟨shapeEq_trans hs ⟨rfl, rfl, rfl, rfl, rfl, rfl⟩, hc, ?_⟩
  intro had
  exfalso
  have hba := hd had
  rw [hba, had] at hdel
  exact Bool.noConfusion hdel

theorem rmRel_deleted_false {a b : Task} (h : RmRel a b)
    (hdel : b.deleted = false) : a.deleted = false := by
  cases hd : a.deleted
  · rfl
  · rw [(h.2.2 hd), hd] at hdel
    exact (Bool.noConfusion hdel)

/-- Master lemma for the deletion traversal: relative to the state `s0` at
the start of the mutation pass, the traversal only flips `deleted` flags of
previously non-deleted records (never touching ids, parents, titles or
completion), keeps the non-task state components, records as parents only
ids that are the `parentId` of some task, and reports only records that
were live in `s0`. -/
theorem rmVisit_master {g now : Nat} {s0 : State} :
    ∀ (fuel : Nat) (tid : String) (acc : State × List TaskResponse × List String),
      (List.Forall₂ RmRel s0.tasks acc.1.tasks ∧ TasksOnly s0 acc.1 ∧
        (∀ p ∈ acc.2.2, ∃ u ∈ s0.tasks, u.goalId = g ∧ u.parentId = some p) ∧
        (∀ r ∈ acc.2.1, ∃ a ∈ s0.tasks, a.goalId = g ∧ a.id = r.id ∧ a.deleted = false)) →
      (List.Forall₂ RmRel s0.tasks (rmVisit g now fuel tid acc).1.tasks ∧
        TasksOnly s0 (rmVisit g now fuel tid acc).1 ∧
        (∀ p ∈ (rmVisit g now fuel tid acc).2.2, ∃ u ∈ s0.tasks, u.goalId = g ∧ u.parentId = some p) ∧
        (∀ r ∈ (rmVisit g now fuel tid acc).2.1, ∃ a ∈ s0.tasks, a.goalId = g ∧ a.id = r.id ∧ a.deleted = false)) := by
  intro fuel
  induction fuel with
  | zero => intro tid acc h; simpa only [rmVisit] using h
  | succ fuel ih =>
    intro tid acc h
    obtain ⟨s, removed, parents⟩ := acc
    simp only [rmVisit]
    cases hft : findTask s g tid with
    | none => exact h
    | some t =>
      dsimp only
      obtain ⟨hrel, honly, hpar, hrem⟩ := h
      have ht := findTask_pred hft
      obtain ⟨a0, ha0, hrel0⟩ := forall₂_mem_right hrel ht.1
      have hpar' : ∀ p ∈ (match t.parentId with
          | some p => if p ∈ parents then parents else parents ++ [p]
          | none => parents), ∃ u ∈ s0.tasks, u.goalId = g ∧ u.parentId = some p := by
        cases htp : t.parentId with
        | none => exact hpar
        | some q =>
          by_cases hq : q ∈ parents
          · simpa [hq] using hpar
          · simp only [if_neg hq]
            intro p hp
            rcases List.mem_append.mp hp with hp | hp
            · exact hpar p hp
            · have : p = q := by simpa using hp
              subst this
              refine ⟨a0, ha0, ?_, ?_⟩
              · rw [hrel0.1.2.1, ht.2.1]
              · rw [hrel0.1.2.2.1, htp]
      have hfold := foldl_pres_mem ((childrenAll s g tid).map Task.id)
        (fun b k _ hb => ih k b hb)
        (s, removed, (match t.parentId with
          | some p => if p ∈ parents then parents else parents ++ [p]
          | none => parents))
        ⟨hrel, honly, hpar', hrem⟩
      set acc' := ((childrenAll s g tid).map Task.id).foldl
        (fun a k => rmVisit g now fuel k a)
        (s, removed, (match t.parentId with
          | some p => if p ∈ parents then parents else parents ++ [p]
          | none => parents)) with hacc'
      obtain ⟨hrel', honly', hpar'', hrem'⟩ := hfold
      cases hft' : findTask acc'.1 g tid with
      | none => exact ⟨hrel', honly', hpar'', hrem'⟩
      | some t' =>
        dsimp only
        by_cases hdel : t'.deleted = true
        · rw [if_pos hdel]
          exact ⟨hrel', honly', hpar'', hrem'⟩
        · rw [if_neg hdel]
          have hdel' : t'.deleted = false := by
            cases h : t'.deleted
            · rfl
            · exact absurd h hdel
          have ht' := findTask_pred hft'
          obtain ⟨a1, ha1, hrel1⟩ := forall₂_mem_right hrel' ht'.1
          refine ⟨?_, ?_, hpar'', ?_⟩
          · refine forall₂_comp (T := RmRel) ?_ hrel' (updTask_spec _ hft')
            intro x y z hxy hyz
            rcases hyz with hzy | ⟨hyt, hz⟩
            · exact hzy ▸ hxy
            · subst hyt
              exact hz ▸ rmRel_upd hxy hdel'
          · exact honly'
          · intro r hr
            rcases List.mem_append.mp hr with hr | hr
            · exact hrem' r hr
            · have : r = ({ t' with deleted := true, updatedAt := now } : Task).toResponse := by
                simpa using hr
              subst this
              refine ⟨a1, ha1, ?_, ?_, rmRel_deleted_false hrel1 hdel'⟩
              · rw [hrel1.1.2.1, ht'.2.1]
              · rw [hrel1.1.1]; rfl

theorem ctRel_upd {a b : Task} {now : Nat} (h : CtRel now a b)
    (hinc : b.isComplete = false) :
    CtRel now a { b with isComplete := true, updatedAt := now } := by
  obtain ⟨hs, hd, hc, hst⟩ := h
  refine ⟨shapeEq_trans hs ⟨rfl, rfl, rfl, rfl, rfl, rfl⟩, hd, ?_, ?_⟩
  · intro hac
    exfalso
    have hba := hc hac
    rw [hba, hac] at hinc
    exact Bool.noConfusion hinc
  · intro _ _
    rfl

theorem ctRel_incomplete_back {now : Nat} {a b : Task} (h : CtRel now a b)
    (hinc : b.isComplete = false) : a.isComplete = false := by
  cases hc : a.isComplete
  · rfl
  · rw [h.2.2.1 hc, hc] at hinc
    exact Bool.noConfusion hinc

/-- The "complete the current task if still incomplete" step of
`completeTaskAndChildren` preserves the traversal bookkeeping. -/
theorem ctStep_P {g now : Nat} {s0 : State} {tid : String} {t' : Task}
    {acc : State × List TaskResponse × List String}
    (hft : findTask acc.1 g tid = some t') (h : CtP g now s0 acc) :
    CtP g now s0 (if !t'.isComplete then
        ({ acc.1 with
            tasks := updTask g tid
              (fun u => { u with isComplete := true, updatedAt := now }) acc.1.tasks },
         acc.2.1 ++ [({ t' with isComplete := true, updatedAt := now } : Task).toResponse],
         acc.2.2)
      else acc) := by
  obtain ⟨hrel, honly, hpar, hupd⟩ := h
  have ht := findTask_pred hft
  obtain ⟨a1, ha1, hrel1⟩ := forall₂_mem_right hrel ht.1
  by_cases hic : t'.isComplete = true
  · simp only [hic, Bool.not_true, Bool.false_eq_true, if_false]
    exact ⟨hrel, honly, hpar, hupd⟩
  · have hic' : t'.isComplete = false := by
      cases hb : t'.isComplete
      · rfl
      · exact absurd hb hic
    simp only [hic', Bool.not_false, if_true]
    refine ⟨?_, honly, hpar, ?_⟩
    · refine forall₂_comp (T := CtRel now) ?_ hrel (updTask_spec _ hft)
      intro x y z hxy hyz
      rcases hyz with hzy | ⟨hyt, hz⟩
      · exact hzy ▸ hxy
      · subst hyt
        exact hz ▸ ctRel_upd hxy hic'
    · intro r hr
      rcases List.mem_append.mp hr with hr | hr
      · exact hupd r hr
      · have : r = ({ t' with isComplete := true, updatedAt := now } : Task).toResponse := by
          simpa using hr
        subst this
        refine ⟨a1, ha1, ?_, ?_, ctRel_incomplete_back hrel1 hic', rfl⟩
        · rw [hrel1.1.2.1, ht.2.1]
        · rw [hrel1.1.1]; rfl

/-- Adding a parent id to the `parentsToCheck` set preserves the
traversal bookkeeping, provided some task has it as `parentId`. -/
theorem ctParentAdd_P {g now : Nat} {s0 : State} {q : String}
    {acc : State × List TaskResponse × List String}
    (hu : ∃ u ∈ s0.tasks, u.goalId = g ∧ u.parentId = some q)
    (h : CtP g now s0 acc) :
    CtP g now s0 (acc.1, acc.2.1, if q ∈ acc.2.2 then acc.2.2 else acc.2.2 ++ [q]) := by
  obtain ⟨hrel, honly, hpar, hupd⟩ := h
  refine ⟨hrel, honly, ?_, hupd⟩
  by_cases hq : q ∈ acc.2.2
  · rw [if_pos hq]
    exact hpar
  · rw [if_neg hq]
    intro p hp
    rcases List.mem_append.mp hp with hp | hp
    · exact hpar p hp
    · have : p = q := by simpa using hp
      subst this
      exact hu

/-- Master lemma for the completion traversal: relative to the state `s0`
at the start of the pass, the traversal only turns `isComplete` from false
to true (stamping `updatedAt` with `now`), never touches `deleted`, the
identity fields or the non-task state, records as parents only ids that
are the `parentId` of some task, and reports exactly records that were
incomplete, as complete. -/
theorem ctVisit_master {g now : Nat} {cc : Bool} {s0 : State} :
    ∀ (fuel : Nat) (tid : String) (acc : State × List TaskResponse × List String),
      CtP g now s0 acc → CtP g now s0 (ctVisit g now cc fuel tid acc) := by
  intro fuel
  induction fuel with
  | zero => intro tid acc h; simpa only [ctVisit] using h
  | succ fuel ih =>
    intro tid acc h
    obtain ⟨s, upd, parents⟩ := acc
    simp only [ctVisit]
    cases hft : findTask s g tid with
    | none => exact h
    | some t =>
      dsimp only
      by_cases hcc : cc = true
      · rw [if_pos hcc]
        set acc' := ((childrenAll s g tid).map Task.id).foldl
          (fun a k => ctVisit g now cc fuel k a) (s, upd, parents) with hacc'
        have hfold : CtP g now s0 acc' :=
          foldl_pres_mem _ (fun b k _ hb => ih k b hb) _ h
        cases hft' : findTask acc'.1 g tid with
        | none => exact hfold
        | some t' =>
          dsimp only
          have hstep := ctStep_P hft' hfold
          have ht' := findTask_pred hft'
          obtain ⟨a1, ha1, hrel1⟩ := forall₂_mem_right hfold.1 ht'.1
          cases htp : t'.parentId with
          | none => exact hstep
          | some q =>
            dsimp only
            refine ctParentAdd_P ⟨a1, ha1, ?_, ?_⟩ hstep
            · rw [hrel1.1.2.1, ht'.2.1]
            · rw [hrel1.1.2.2.1, htp]
      · rw [if_neg hcc]
        by_cases hlive : ((childrenLive s g tid).all (·.isComplete)) = true
        · rw [if_neg (by simp [hlive])]
          have hstep := ctStep_P hft h
          have ht := findTask_pred hft
          obtain ⟨a1, ha1, hrel1⟩ := forall₂_mem_right h.1 ht.1
          cases htp : t.parentId with
          | none => exact hstep
          | some q =>
            dsimp only
            refine ctParentAdd_P ⟨a1, ha1, ?_, ?_⟩ hstep
            · rw [hrel1.1.2.1, ht.2.1]
            · rw [hrel1.1.2.2.1, htp]
        · rw [if_pos (by simp [Bool.not_eq_true] at hlive; simp [hlive])]
          exact h

theorem tasksOnly_refl (s : State) : TasksOnly s s := ⟨rfl, rfl, rfl⟩

theorem tasksOnly_trans {s1 s2 s3 : State} (h1 : TasksOnly s1 s2)
    (h2 : TasksOnly s2 s3) : TasksOnly s1 s3 :=
  ⟨h2.1.trans h1.1, h2.2.1.trans h1.2.1, h2.2.2.trans h1.2.2⟩

theorem rcRel_refl (g now : Nat) (ps : List String) (a : Task) :
    RcRel g now ps a a := Or.inl rfl

theorem rcRel_comp {g now : Nat} {ps : List String} {a b c : Task}
    (h1 : RcRel g now ps a b) (h2 : RcRel g now ps b c) : RcRel g now ps a c := by
  rcases h1 with h1 | ⟨hg, hm, hs, hd, hu⟩
  · subst h1; exact h2
  · rcases h2 with h2 | ⟨hg2, hm2, hs2, hd2, hu2⟩
    · subst h2; exact Or.inr ⟨hg, hm, hs, hd, hu⟩
    · exact Or.inr ⟨hg, hm, shapeEq_trans hs hs2, hd.trans hd2, hu2⟩

theorem rcRel_shape {g now : Nat} {ps : List String} {a b : Task}
    (h : RcRel g now ps a b) : ShapeEq a b := by
  rcases h with h | ⟨_, _, hs, _, _⟩
  · subst h; exact shapeEq_refl _
  · exact hs

theorem rmRel_shape {a b : Task} (h : RmRel a b) : ShapeEq a b := h.1

theorem ctRel_shape {now : Nat} {a b : Task} (h : CtRel now a b) : ShapeEq a b := h.1

/-- The single-parent recheck only rewrites the parent record (flag and
timestamp), keeps everything else, and keeps the non-task state. -/
theorem upts_rc {g now : Nat} {ps : List String} {s : State} {pid : Option String}
    (hmem : ∀ p, pid = some p → p ∈ ps) :
    List.Forall₂ (RcRel g now ps) s.tasks (updateParentTaskStatus s g pid now).1.tasks ∧
      TasksOnly s (updateParentTaskStatus s g pid now).1 := by
  cases pid with
  | none =>
    simp only [updateParentTaskStatus]
    exact ⟨forall₂_self (rcRel_refl g now ps) _, tasksOnly_refl s⟩
  | some p =>
    simp only [updateParentTaskStatus]
    cases hp : findTask s g p with
    | none => exact ⟨forall₂_self (rcRel_refl g now ps) _, tasksOnly_refl s⟩
    | some parent =>
      dsimp only
      have hpred := findTask_pred hp
      have hbase : ∀ (f : Task → Task), (∀ u, ShapeEq u (f u) ∧ u.deleted = (f u).deleted ∧
            (f u).updatedAt = now) →
          List.Forall₂ (RcRel g now ps) s.tasks (updTask g p f s.tasks) := by
        intro f hf
        refine (updTask_spec f hp).imp ?_
        intro x y hxy
        rcases hxy with hyx | ⟨hxp, hy⟩
        · exact hyx ▸ rcRel_refl g now ps x
        · subst hxp
          subst hy
          refine Or.inr ⟨hpred.2.1, ?_, (hf x).1, (hf x).2.1, (hf x).2.2⟩
          rw [hpred.2.2]
          exact hmem p rfl
      split_ifs with h1 h2
      · exact ⟨hbase _ (fun u => ⟨⟨rfl, rfl, rfl, rfl, rfl, rfl⟩, rfl, rfl⟩), ⟨rfl, rfl, rfl⟩⟩
      · exact ⟨hbase _ (fun u => ⟨⟨rfl, rfl, rfl, rfl, rfl, rfl⟩, rfl, rfl⟩), ⟨rfl, rfl, rfl⟩⟩
      · exact ⟨forall₂_self (rcRel_refl g now ps) _, tasksOnly_refl s⟩

/-- The recheck loop only rewrites rechecked parents. -/
theorem rmRecheck_master (g now : Nat) (ps : List String) (s : State) :
    List.Forall₂ (RcRel g now ps) s.tasks (rmRecheck g now ps s).1.tasks ∧
      TasksOnly s (rmRecheck g now ps s).1 := by
  unfold rmRecheck
  refine foldl_pres_mem (P := fun (b : State × List TaskResponse) =>
      List.Forall₂ (RcRel g now ps) s.tasks b.1.tasks ∧ TasksOnly s b.1)
    ps ?_ (s, []) ⟨forall₂_self (rcRel_refl g now ps) _, tasksOnly_refl s⟩
  intro b p hp hb
  have hstep : List.Forall₂ (RcRel g now ps) b.1.tasks
      (updateParentTaskStatus b.1 g (some p) now).1.tasks ∧
      TasksOnly b.1 (updateParentTaskStatus b.1 g (some p) now).1 :=
    upts_rc (fun q hq => by injection hq with hq; exact hq ▸ hp)
  rcases hu : updateParentTaskStatus b.1 g (some p) now with ⟨s', r⟩
  rw [hu] at hstep
  have hstep1 : List.Forall₂ (RcRel g now ps) b.1.tasks s'.tasks := hstep.1
  have hstep2 : TasksOnly b.1 s' := hstep.2
  have hout : List.Forall₂ (RcRel g now ps) s.tasks s'.tasks ∧ TasksOnly s s' :=
    ⟨forall₂_comp (R := RcRel g now ps) (S := RcRel g now ps) (T := RcRel g now ps)
        (fun _ _ _ hab hbc => rcRel_comp hab hbc) hb.1 hstep1,
      tasksOnly_trans hb.2 hstep2⟩
  cases r with
  | none => exact hout
  | some rr => exact hout

/-! ## Operation-level shape lemmas -/

theorem rmVisit_P {g now : Nat} {s0 : State} (fuel : Nat) (tid : String)
    (acc : State × List TaskResponse × List String) (h : RmP g s0 acc) :
    RmP g s0 (rmVisit g now fuel tid acc) :=
  rmVisit_master fuel tid acc h

theorem ctVisit_P {g now : Nat} {cc : Bool} {s0 : State} (fuel : Nat) (tid : String)
    (acc : State × List TaskResponse × List String) (h : CtP g now s0 acc) :
    CtP g now s0 (ctVisit g now cc fuel tid acc) :=
  ctVisit_master fuel tid acc h

theorem rmP_start (g : Nat) (s : State) : RmP g s (s, [], []) :=
  ⟨forall₂_self rmRel_refl _, tasksOnly_refl s,
    fun p hp => absurd hp (List.not_mem_nil p),
    fun r hr => absurd hr (List.not_mem_nil r)⟩

theorem ctP_start (g now : Nat) (s : State) : CtP g now s (s, [], []) :=
  ⟨forall₂_self (ctRel_refl now) _, tasksOnly_refl s,
    fun p hp => absurd hp (List.not_mem_nil p),
    fun r hr => absurd hr (List.not_mem_nil r)⟩

theorem removeTasksAll_ok {s : State} {g : Nat} {ids : List String} {dc : Bool}
    {now : Nat} {out} (h : removeTasksAll s g ids dc now = .ok out) :
    g ∈ s.plans ∧
    ((sortBy idLe ids).any (fun tid =>
        (findTask s g tid).isSome && !(childrenAll s g tid).isEmpty && !dc)) ≠ true ∧
    out = (let acc := (sortBy idLe ids).foldl
            (fun a tid => rmVisit g now (s.tasks.length + 1) tid a) (s, [], [])
           (((rmRecheck g now acc.2.2 acc.1).1 : State), acc.2.1, acc.2.2,
             (rmRecheck g now acc.2.2 acc.1).2)) := by
  unfold removeTasksAll at h
  by_cases h1 : g ∈ s.plans
  · rw [if_pos h1] at h
    by_cases h2 : ((sortBy idLe ids).any fun tid =>
        (findTask s g tid).isSome && !(childrenAll s g tid).isEmpty && !dc) = true
    · rw [if_pos h2] at h
      exact absurd h (by simp)
    · rw [if_neg h2] at h
      injection h with h
      exact ⟨h1, h2, h.symm⟩
  · rw [if_neg h1] at h
    exact absurd h (by simp)

theorem completeTasksStatus_ok {s : State} {g : Nat} {ids : List String} {cc : Bool}
    {now : Nat} {out} (h : completeTasksStatus s g ids cc now = .ok out) :
    g ∈ s.plans ∧
    out = (let acc := ids.foldl
            (fun a tid => ctVisit g now cc (s.tasks.length + 1) tid a) (s, [], [])
           (((rmRecheck g now acc.2.2 acc.1).1 : State), acc.2.1,
             (rmRecheck g now acc.2.2 acc.1).2)) := by
  unfold completeTasksStatus at h
  by_cases h1 : g ∈ s.plans
  · rw [if_pos h1] at h
    injection h with h
    exact ⟨h1, h.symm⟩
  · rw [if_neg h1] at h
    exact absurd h (by simp)

theorem addTask_ok {s : State} {g : Nat} {pid : Option String} {ti de : String}
    {now : Nat} {out} (h : addTask s g pid ti de now = .ok out) :
    g ∈ s.plans ∧ (∀ p, pid = some p → (findTask s g p).isSome = true) ∧
    out = (({ s with
              tasks := s.tasks ++
                [⟨mkId pid (s.counters g (parentKey pid) + 1), g, pid, ti, de,
                  false, false, now, now⟩]
              counters := fun g' k =>
                if g' == g && k == parentKey pid then s.counters g (parentKey pid) + 1
                else s.counters g' k } : State),
          (⟨mkId pid (s.counters g (parentKey pid) + 1), g, pid, ti, de,
            false, false, now, now⟩ : Task).toResponse) := by
  unfold addTask at h
  by_cases h1 : g ∈ s.plans
  · rw [if_pos h1] at h
    by_cases h2 : (pid.elim false fun p => (findTask s g p).isNone) = true
    · rw [if_pos h2] at h
      exact absurd h (by simp)
    · rw [if_neg h2] at h
      injection h with h
      refine ⟨h1, ?_, h.symm⟩
      intro p hp
      subst hp
      simp only [Option.elim] at h2
      cases hfp : findTask s g p with
      | none => exact absurd (by simp [hfp]) h2
      | some t => simp [hfp]
  · rw [if_neg h1] at h
    exact absurd h (by simp)

/-- A successful `removeTasks` leaves every record's identity fields in
place (same list positions, ids, parents, goals) and the non-task state. -/
theorem removeTasks_shape {s : State} {g : Nat} {ids : List String} {dc : Bool}
    {now : Nat} {out} (h : removeTasks s g ids dc now = .ok out) :
    List.Forall₂ ShapeEq s.tasks out.1.tasks ∧ TasksOnly s out.1 := by
  unfold removeTasks at h
  cases hall : removeTasksAll s g ids dc now with
  | error e => rw [hall] at h; simp [Except.map] at h
  | ok r =>
    rw [hall] at h
    simp only [Except.map] at h
    injection h with h
    obtain ⟨_, _, hr⟩ := removeTasksAll_ok hall
    subst hr
    subst h
    have hfold : RmP g s ((sortBy idLe ids).foldl
        (fun a tid => rmVisit g now (s.tasks.length + 1) tid a) (s, [], [])) :=
      foldl_pres_mem _ (fun b tid _ hb => rmVisit_P _ tid b hb) _ (rmP_start g s)
    have hrc := rmRecheck_master g now
      ((sortBy idLe ids).foldl
        (fun a tid => rmVisit g now (s.tasks.length + 1) tid a) (s, [], [])).2.2
      ((sortBy idLe ids).foldl
        (fun a tid => rmVisit g now (s.tasks.length + 1) tid a) (s, [], [])).1
    refine ⟨?_, ?_⟩
    · exact forall₂_comp (R := RmRel) (S := RcRel g now _) (T := ShapeEq)
        (fun _ _ _ hab hbc => shapeEq_trans (rmRel_shape hab) (rcRel_shape hbc))
        hfold.1 hrc.1
    · exact tasksOnly_trans hfold.2.1 hrc.2

/-- A successful `completeTasksStatus` likewise preserves all identity
fields and the non-task state. -/
theorem completeTasksStatus_shape {s : State} {g : Nat} {ids : List String}
    {cc : Bool} {now : Nat} {out}
    (h : completeTasksStatus s g ids cc now = .ok out) :
    List.Forall₂ ShapeEq s.tasks out.1.tasks ∧ TasksOnly s out.1 := by
  obtain ⟨_, hr⟩ := completeTasksStatus_ok h
  subst hr
  have hfold : CtP g now s (ids.foldl
      (fun a tid => ctVisit g now cc (s.tasks.length + 1) tid a) (s, [], [])) :=
    foldl_pres_mem _ (fun b tid _ hb => ctVisit_P _ tid b hb) _ (ctP_start g now s)
  have hrc := rmRecheck_master g now
    (ids.foldl (fun a tid => ctVisit g now cc (s.tasks.length + 1) tid a) (s, [], [])).2.2
    (ids.foldl (fun a tid => ctVisit g now cc (s.tasks.length + 1) tid a) (s, [], [])).1
  refine ⟨?_, ?_⟩
  · exact forall₂_comp (R := CtRel now) (S := RcRel g now _) (T := ShapeEq)
      (fun _ _ _ hab hbc => shapeEq_trans (ctRel_shape hab) (rcRel_shape hbc))
      hfold.1 hrc.1
  · exact tasksOnly_trans hfold.2.1 hrc.2

/-! ## The structural invariant holds in every reachable state -/

theorem forall₂_pairwise {α : Type} {R P Q : α → α → Prop}
    (hco : ∀ a b a' b', R a a' → R b b' → P a b → Q a' b') :
    ∀ {l l' : List α}, List.Forall₂ R l l' → l.Pairwise P → l'.Pairwise Q := by
  intro l l' hf
  induction hf with
  | nil => intro _; exact List.Pairwise.nil
  | cons r hr ih =>
    intro hp
    rcases List.pairwise_cons.mp hp with ⟨hhead, htail⟩
    refine List.pairwise_cons.mpr ⟨?_, ih htail⟩
    intro b' hb'
    obtain ⟨b, hb, hrb⟩ := forall₂_mem_right hr hb'
    exact hco _ b _ b' r hrb (hhead b hb)

theorem inv_of_shape {s s' : State} (hs : List.Forall₂ ShapeEq s.tasks s'.tasks)
    (ho : TasksOnly s s') (hinv : Inv s) : Inv s' := by
  refine ⟨?_, ?_, ?_, ?_⟩
  · intro t' ht'
    obtain ⟨t, ht, hst⟩ := forall₂_mem_right hs ht'
    obtain ⟨n, hn0, hnc, hid⟩ := hinv.seqBound t ht
    refine ⟨n, hn0, ?_, ?_⟩
    · rw [ho.2.2, ← hst.2.1, ← hst.2.2.1]
      exact hnc
    · rw [← hst.1, ← hst.2.2.1]
      exact hid
  · intro t' ht'
    obtain ⟨t, ht, hst⟩ := forall₂_mem_right hs ht'
    rw [ho.1, ← hst.2.1]
    exact hinv.goalBound t ht
  · intro q hq
    rw [ho.1]
    exact hinv.planBound q (ho.2.1 ▸ hq)
  · refine forall₂_pairwise ?_ hs hinv.keyed
    intro a b a' b' ha hb hp hg hi
    exact hp (ha.2.1.trans (hg.trans hb.2.1.symm)) (ha.1.trans (hi.trans hb.1.symm) ▸ rfl)

theorem inv_init : Inv State.init := by
  refine ⟨?_, ?_, ?_, List.Pairwise.nil⟩ <;> intro x hx <;> cases hx

theorem inv_createGoalPlan {s : State} (h : Inv s) : Inv (createGoalPlan s) := by
  refine ⟨?_, ?_, ?_, ?_⟩
  · intro t ht
    obtain ⟨n, hn0, hnc, hid⟩ := h.seqBound t ht
    refine ⟨n, hn0, ?_, hid⟩
    have hgb := h.goalBound t ht
    have hne : (t.goalId == s.goalCount + 1) = false := by
      simp only [beq_eq_false_iff_ne, ne_eq]
      omega
    simp only [createGoalPlan, hne, Bool.false_eq_true, if_false]
    exact hnc
  · intro t ht
    have := h.goalBound t ht
    simp only [createGoalPlan]
    omega
  · intro q hq
    simp only [createGoalPlan] at hq ⊢
    rcases List.mem_append.mp hq with hq | hq
    · exact le_trans (h.planBound q hq) (Nat.le_succ _)
    · have : q = s.goalCount + 1 := by simpa using hq
      omega
  · exact h.keyed

theorem inv_addTask {s : State} {g : Nat} {pid : Option String} {ti de : String}
    {now : Nat} {out} (h : addTask s g pid ti de now = .ok out) (hinv : Inv s) :
    Inv out.1 := by
  obtain ⟨hplan, hpar, hout⟩ := addTask_ok h
  subst hout
  have hfresh : ∀ t ∈ s.tasks, t.goalId = g →
      t.id ≠ mkId pid (s.counters g (parentKey pid) + 1) := by
    intro t ht htg he
    obtain ⟨n, hn0, hnc, hid⟩ := hinv.seqBound t ht
    have := mkId_inj (hid.symm.trans he)
    rw [htg, this.1] at hnc
    omega
  refine ⟨?_, ?_, ?_, ?_⟩
  · intro t ht
    rcases List.mem_append.mp ht with ht | ht
    · obtain ⟨n, hn0, hnc, hid⟩ := hinv.seqBound t ht
      refine ⟨n, hn0, ?_, hid⟩
      dsimp only
      by_cases hb : (t.goalId == g && parentKey t.parentId == parentKey pid) = true
      · simp only [hb, if_true]
        simp only [Bool.and_eq_true, beq_iff_eq] at hb
        rw [hb.1, hb.2] at hnc
        omega
      · rw [Bool.not_eq_true] at hb
        simp only [hb, Bool.false_eq_true, if_false]
        exact hnc
    · have ht' : t = ⟨mkId pid (s.counters g (parentKey pid) + 1), g, pid, ti, de,
          false, false, now, now⟩ := by simpa using ht
      subst ht'
      refine ⟨s.counters g (parentKey pid) + 1, Nat.succ_pos _, ?_, rfl⟩
      dsimp only
      rw [if_pos (by simp)]
  · intro t ht
    rcases List.mem_append.mp ht with ht | ht
    · exact hinv.goalBound t ht
    · have ht' : t = ⟨mkId pid (s.counters g (parentKey pid) + 1), g, pid, ti, de,
          false, false, now, now⟩ := by simpa using ht
      subst ht'
      exact hinv.planBound g hplan
  · exact hinv.planBound
  · dsimp only
    rw [List.pairwise_append]
    refine ⟨hinv.keyed, List.pairwise_singleton _ _, ?_⟩
    intro a ha b hb hgab
    have hb' : b = ⟨mkId pid (s.counters g (parentKey pid) + 1), g, pid, ti, de,
        false, false, now, now⟩ := by simpa using hb
    subst hb'
    exact hfresh a ha hgab

theorem inv_removeTasks {s : State} {g : Nat} {ids : List String} {dc : Bool}
    {now : Nat} {out} (h : removeTasks s g ids dc now = .ok out) (hinv : Inv s) :
    Inv out.1 :=
  inv_of_shape (removeTasks_shape h).1 (removeTasks_shape h).2 hinv

theorem inv_completeTasksStatus {s : State} {g : Nat} {ids : List String}
    {cc : Bool} {now : Nat} {out}
    (h : completeTasksStatus s g ids cc now = .ok out) (hinv : Inv s) :
    Inv out.1 :=
  inv_of_shape (completeTasksStatus_shape h).1 (completeTasksStatus_shape h).2 hinv

theorem step_inv {s s' : State} (h : Step s s') (hinv : Inv s) : Inv s' := by
  cases h with
  | goal => exact inv_createGoalPlan hinv
  | add _ _ _ _ _ _ _ hadd => exact inv_addTask hadd hinv
  | remove _ _ _ _ _ hrm => exact inv_removeTasks hrm hinv
  | complete _ _ _ _ _ hct => exact inv_completeTasksStatus hct hinv

theorem reachable_inv {s : State} (h : Reachable s) : Inv s := by
  induction h with
  | init => exact inv_init
  | step _ hstep ih => exact step_inv hstep ih

/-! ## Claim C1: identifier allocation -/

theorem forall₂_mem_left {α β : Type} {R : α → β → Prop} :
    ∀ {l1 : List α} {l2 : List β}, List.Forall₂ R l1 l2 → ∀ {a}, a ∈ l1 →
      ∃ b ∈ l2, R a b := by
  intro l1 l2 h
  induction h with
  | nil => intro a ha; cases ha
  | cons r _ ih =>
    intro a ha
    rcases List.mem_cons.mp ha with h1 | h1
    · subst h1; exact ⟨_, List.mem_cons_self _ _, r⟩
    · obtain ⟨b, hb, hab⟩ := ih h1
      exact ⟨b, List.mem_cons_of_mem _ hb, hab⟩

theorem inv_fresh {s : State} (hinv : Inv s) (g : Nat) (pid : Option String) :
    ∀ t ∈ s.tasks, t.goalId = g →
      t.id ≠ mkId pid (s.counters g (parentKey pid) + 1) := by
  intro t ht htg he
  obtain ⟨n, hn0, hnc, hid⟩ := hinv.seqBound t ht
  have := mkId_inj (hid.symm.trans he)
  rw [htg, this.1] at hnc
  omega

/-- Every step preserves every existing task's identity fields. -/
theorem step_ids {s s' : State} (h : Step s s') :
    ∀ t ∈ s.tasks, ∃ t' ∈ s'.tasks,
      t'.id = t.id ∧ t'.goalId = t.goalId ∧ t'.parentId = t.parentId := by
  cases h with
  | goal =>
    intro t ht
    exact ⟨t, ht, rfl, rfl, rfl⟩
  | add _ _ _ _ _ _ _ hadd =>
    obtain ⟨_, _, hout⟩ := addTask_ok hadd
    rw [Prod.ext_iff] at hout
    intro t ht
    refine ⟨t, ?_, rfl, rfl, rfl⟩
    rw [show s' = _ from hout.1]
    exact List.mem_append.mpr (Or.inl ht)
  | remove _ _ _ _ _ hrm =>
    intro t ht
    obtain ⟨t', ht', hsh⟩ := forall₂_mem_left (removeTasks_shape hrm).1 ht
    exact ⟨t', ht', hsh.1.symm, hsh.2.1.symm, hsh.2.2.1.symm⟩
  | complete _ _ _ _ _ hct =>
    intro t ht
    obtain ⟨t', ht', hsh⟩ := forall₂_mem_left (completeTasksStatus_shape hct).1 ht
    exact ⟨t', ht', hsh.1.symm, hsh.2.1.symm, hsh.2.2.1.symm⟩

/-- C1: in every reachable state, a successful `addTask` under parent `P`
of goal `G` mints exactly the id `P.id + "." + n` (`String(n)` for a null
parent) with `n` the stored counter for `(G, P)` plus one; every task
already created under `(G, P)` — soft-deleted or not — carries a strictly
smaller sequence, the new id collides with no existing id of the goal, and
every later public operation keeps every existing id, goal and parent
unchanged, so ids are never reused or renumbered. -/
theorem claim_C1 {s : State} {g : Nat} {pid : Option String} {ti de : String}
    {now : Nat} {s' : State} {r : TaskResponse}
    (hreach : Reachable s) (h : addTask s g pid ti de now = .ok (s', r)) :
    r.id = mkId pid (s.counters g (parentKey pid) + 1) ∧
    (∀ t ∈ s.tasks, t.goalId = g → t.parentId = pid →
      ∃ m, t.id = mkId pid m ∧ m < s.counters g (parentKey pid) + 1) ∧
    (∀ t ∈ s.tasks, t.goalId = g → t.id ≠ r.id) ∧
    (∀ s₂, Step s' s₂ → ∀ t ∈ s'.tasks, ∃ t' ∈ s₂.tasks,
      t'.id = t.id ∧ t'.goalId = t.goalId ∧ t'.parentId = t.parentId) := by
  have hinv := reachable_inv hreach
  obtain ⟨hplan, hpar, hout⟩ := addTask_ok h
  have hr : r = (⟨mkId pid (s.counters g (parentKey pid) + 1), g, pid, ti, de,
      false, false, now, now⟩ : Task).toResponse := congrArg Prod.snd hout
  refine ⟨by rw [hr]; rfl, ?_, ?_, ?_⟩
  · intro t ht htg htp
    obtain ⟨n, hn0, hnc, hid⟩ := hinv.seqBound t ht
    rw [htp] at hid
    rw [htg, htp] at hnc
    exact ⟨n, hid, by omega⟩
  · intro t ht htg
    rw [hr]
    exact inv_fresh hinv g pid t ht htg
  · intro s₂ hstep
    exact step_ids hstep

theorem reach_sG : Reachable sG := .step .init (.goal _)

theorem reach_sA1 : Reachable sA1 :=
  .step reach_sG
    (.add sG 1 none "a" "a" 1 sA1 (getOk (addTask sG 1 none "a" "a" 1) dfltAdd).2 rfl)

theorem reach_sA2 : Reachable sA2 :=
  .step reach_sA1
    (.add sA1 1 (some "1") "b" "b" 2 sA2
      (getOk (addTask sA1 1 (some "1") "b" "b" 2) dfltAdd).2 rfl)

theorem claim_C1_witness :
    ((getOk (addTask sA2 1 (some "1") "c" "c" 9) dfltAdd).2.id
        = mkId (some "1") (sA2.counters 1 (parentKey (some "1")) + 1)) ∧
    (∀ t ∈ sA2.tasks, t.goalId = 1 →
      t.id ≠ (getOk (addTask sA2 1 (some "1") "c" "c" 9) dfltAdd).2.id) := by
  have hh := claim_C1 reach_sA2
    (show addTask sA2 1 (some "1") "c" "c" 9
        = .ok ((getOk (addTask sA2 1 (some "1") "c" "c" 9) dfltAdd).1,
               (getOk (addTask sA2 1 (some "1") "c" "c" 9) dfltAdd).2) from rfl)
  exact ⟨hh.1, hh.2.2.1⟩

/-! ## Claim C4: the single-parent recheck -/

/-- Case characterization of `updateParentTaskStatus`, with a frame
property showing only the parent record can be rewritten. -/
theorem upts_spec (s : State) (g : Nat) (pid : Option String) (now : Nat) :
    (pid = none → updateParentTaskStatus s g pid now = (s, none)) ∧
    (∀ p, pid = some p → findTask s g p = none →
      updateParentTaskStatus s g pid now = (s, none)) ∧
    (∀ p parent, pid = some p → findTask s g p = some parent →
      ((!(childrenLive s g p).isEmpty && (childrenLive s g p).all (·.isComplete)) = true →
        parent.isComplete = false →
        updateParentTaskStatus s g pid now =
          ({ s with
              tasks := updTask g p
                (fun u => { u with isComplete := true, updatedAt := now }) s.tasks },
           some ({ parent with isComplete := true, updatedAt := now } : Task).toResponse)) ∧
      ((!(childrenLive s g p).isEmpty && (childrenLive s g p).all (·.isComplete)) = false →
        parent.isComplete = true →
        updateParentTaskStatus s g pid now =
          ({ s with
              tasks := updTask g p
                (fun u => { u with isComplete := false, updatedAt := now }) s.tasks },
           some ({ parent with isComplete := false, updatedAt := now } : Task).toResponse)) ∧
      ((!(childrenLive s g p).isEmpty && (childrenLive s g p).all (·.isComplete))
          = parent.isComplete →
        updateParentTaskStatus s g pid now = (s, none))) ∧
    (List.Forall₂ (fun a b => b = a ∨ (∃ p, pid = some p ∧ a.goalId = g ∧ a.id = p))
      s.tasks (updateParentTaskStatus s g pid now).1.tasks) := by
  refine ⟨?_, ?_, ?_, ?_⟩
  · intro h
    subst h
    rfl
  · intro p hp hf
    subst hp
    simp only [updateParentTaskStatus, hf]
  · intro p parent hp hf
    subst hp
    simp only [updateParentTaskStatus, hf]
    refine ⟨?_, ?_, ?_⟩
    · intro hall hpc
      rw [if_pos (by rw [hall, hpc]; rfl)]
    · intro hall hpc
      rw [if_neg (by rw [hall, hpc]; simp), if_pos (by rw [hall, hpc]; rfl)]
    · intro heq
      cases hac : (!(childrenLive s g p).isEmpty && (childrenLive s g p).all (·.isComplete)) with
      | false =>
        rw [hac] at heq
        rw [if_neg (by simp), if_neg (by simp [← heq])]
      | true =>
        rw [hac] at heq
        rw [if_neg (by simp [← heq]), if_neg (by simp)]
  · have hrc : List.Forall₂ (RcRel g now pid.toList) s.tasks
        (updateParentTaskStatus s g pid now).1.tasks ∧
        TasksOnly s (updateParentTaskStatus s g pid now).1 :=
      upts_rc (fun q hq => by simp [hq])
    refine hrc.1.imp ?_
    intro a b hab
    rcases hab with hab | ⟨hg, hm, _, _, _⟩
    · exact Or.inl hab
    · right
      cases pid with
      | none => simp at hm
      | some p => exact ⟨p, rfl, hg, by simpa using hm⟩

/-- C4: `updateParentTaskStatus` is a no-op returning `null` when the
parent id is null or resolves to no task; otherwise, with `allComplete`
computed from the non-deleted direct children, it flips the parent's flag
to true (returning the parent) exactly when all children are complete and
the parent was incomplete, flips it to false (returning the parent)
exactly when not all are complete and the parent was complete, does
nothing otherwise, and in every case rewrites no record other than the
parent itself — there is no cascade to the grandparent. -/
theorem claim_C4 (s : State) (g : Nat) (pid : Option String) (now : Nat) :
    (pid = none → updateParentTaskStatus s g pid now = (s, none)) ∧
    (∀ p, pid = some p → findTask s g p = none →
      updateParentTaskStatus s g pid now = (s, none)) ∧
    (∀ p parent, pid = some p → findTask s g p = some parent →
      ((!(childrenLive s g p).isEmpty && (childrenLive s g p).all (·.isComplete)) = true →
        parent.isComplete = false →
        updateParentTaskStatus s g pid now =
          ({ s with
              tasks := updTask g p
                (fun u => { u with isComplete := true, updatedAt := now }) s.tasks },
           some ({ parent with isComplete := true, updatedAt := now } : Task).toResponse)) ∧
      ((!(childrenLive s g p).isEmpty && (childrenLive s g p).all (·.isComplete)) = false →
        parent.isComplete = true →
        updateParentTaskStatus s g pid now =
          ({ s with
              tasks := updTask g p
                (fun u => { u with isComplete := false, updatedAt := now }) s.tasks },
           some ({ parent with isComplete := false, updatedAt := now } : Task).toResponse)) ∧
      ((!(childrenLive s g p).isEmpty && (childrenLive s g p).all (·.isComplete))
          = parent.isComplete →
        updateParentTaskStatus s g pid now = (s, none))) ∧
    (List.Forall₂ (fun a b => b = a ∨ (∃ p, pid = some p ∧ a.goalId = g ∧ a.id = p))
      s.tasks (updateParentTaskStatus s g pid now).1.tasks) :=
  upts_spec s g pid now

theorem claim_C4_witness :
    (!(childrenLive stC5 1 "1").isEmpty && (childrenLive stC5 1 "1").all (·.isComplete)) = false ∧
    (updateParentTaskStatus stC5 1 (some "1") 7).2 =
      some (⟨"1", 1, "a", "a", false, false⟩ : TaskResponse) := by
  refine ⟨by decide, ?_⟩
  have h := ((claim_C4 stC5 1 (some "1") 7).2.2.1 "1"
      (⟨"1", 1, none, "a", "a", true, false, 1, 3⟩ : Task) rfl (by decide)).2.1
      (by decide) rfl
  rw [h]
  rfl

/-! ## Claim C2: the HasChildren validation counts deleted children too -/

/-- C2 counterexample: in the reachable state `stC2` the task `"1"` has no
non-deleted direct child (its only child `"1.1"` is soft-deleted), yet
`removeTasks` on `["1"]` without `deleteChildren` fails with the
HasChildren error — so "fails iff some requested id has a non-deleted
direct child" is false on the code. -/
theorem claim_C2_counterexample :
    childrenLive stC2 1 "1" = [] ∧
    (findTask stC2 1 "1").map (·.deleted) = some false ∧
    removeTasks stC2 1 ["1"] false 4 = .error .hasChildren := by
  refine ⟨by decide, by decide, by rfl⟩

/-- C2 amended: given the goal has a plan, `removeTasks` fails with
HasChildren iff `deleteChildren` is false and some requested id names an
existing task with at least one direct child, deleted or not; the
validation is the first thing the operation does, so a failing call
returns before any mutation. -/
theorem claim_C2_amended {s : State} {g : Nat} {ids : List String} {dc : Bool}
    {now : Nat} (hplan : g ∈ s.plans) :
    removeTasks s g ids dc now = .error .hasChildren ↔
      (dc = false ∧ ∃ i ∈ ids, ∃ t, findTask s g i = some t ∧ childrenAll s g i ≠ []) := by
  unfold removeTasks removeTasksAll
  rw [if_pos hplan]
  by_cases hc : ((sortBy idLe ids).any fun tid =>
      (findTask s g tid).isSome && !(childrenAll s g tid).isEmpty && !dc) = true
  · rw [if_pos hc]
    simp only [Except.map]
    constructor
    · intro _
      rw [List.any_eq_true] at hc
      obtain ⟨i, hi, hpred⟩ := hc
      simp only [Bool.and_eq_true, Bool.not_eq_true'] at hpred
      obtain ⟨⟨hsome, hne⟩, hdc⟩ := hpred
      refine ⟨hdc, i, (sortBy_perm idLe ids).mem_iff.mp hi, ?_⟩
      cases hft : findTask s g i with
      | none => rw [hft] at hsome; simp at hsome
      | some t =>
        refine ⟨t, rfl, ?_⟩
        intro hnil
        rw [hnil] at hne
        simp at hne
    · intro _
      trivial
  · rw [if_neg hc]
    simp only [Except.map]
    constructor
    · intro h
      simp at h
    · rintro ⟨hdc, i, hi, t, hft, hne⟩
      exfalso
      apply hc
      rw [List.any_eq_true]
      refine ⟨i, (sortBy_perm idLe ids).mem_iff.mpr hi, ?_⟩
      simp [hft, hdc, List.isEmpty_iff, hne]

theorem claim_C2_amended_witness :
    1 ∈ stC2.plans ∧ removeTasks stC2 1 ["1"] false 4 = .error .hasChildren := by
  refine ⟨by decide, ?_⟩
  exact (claim_C2_amended (by decide)).mpr
    ⟨rfl, "1", by decide,
      ⟨"1", 1, none, "a", "a", false, false, 1, 1⟩, by decide, by decide⟩

/-! ## Claim C3: invariant I5 versus reachable states -/

theorem reach_c3a : Reachable c3a :=
  .step reach_sA2
    (.complete sA2 1 ["1.1"] false 3
      (getOk (completeTasksStatus sA2 1 ["1.1"] false 3) dfltRm) rfl)

theorem reach_stC3 : Reachable stC3 :=
  .step reach_c3a
    (.add c3a 1 (some "1") "c" "c" 4 stC3
      (getOk (addTask c3a 1 (some "1") "c" "c" 4) dfltAdd).2 rfl)

theorem reach_stC5 : Reachable stC5 :=
  .step reach_stC3
    (.add stC3 1 (some "1") "d" "d" 5 stC5
      (getOk (addTask stC3 1 (some "1") "d" "d" 5) dfltAdd).2 rfl)

/-- C3 counterexample: `stC3` is reachable by public operations (create
the goal, add `"1"` and `"1.1"`, complete `"1.1"` — auto-completing `"1"`
— then add `"1.2"`), yet in it the parent `"1"` is complete while its
non-deleted children are `"1.1"` (complete) and `"1.2"` (incomplete), so
the I5 biconditional fails in a reachable state: `addTask` does not
re-check the parent. -/
theorem claim_C3_counterexample :
    Reachable stC3 ∧
    (findTask stC3 1 "1").map (·.isComplete) = some true ∧
    (childrenLive stC3 1 "1").map (fun t => (t.id, t.isComplete)) =
      [("1.1", true), ("1.2", false)] :=
  ⟨reach_stC3, by decide, by decide⟩

theorem find?_updTask {g : Nat} {i : String} {t : Task} (f : Task → Task)
    (hid : ∀ u, (f u).id = u.id ∧ (f u).goalId = u.goalId) :
    ∀ {l : List Task}, l.find? (fun u => u.goalId == g && u.id == i) = some t →
      (updTask g i f l).find? (fun u => u.goalId == g && u.id == i) = some (f t) := by
  intro l
  induction l with
  | nil => intro h; simp at h
  | cons u us ih =>
    intro h
    by_cases hp : (u.goalId == g && u.id == i) = true
    · simp only [List.find?_cons, hp] at h
      injection h with h
      subst h
      simp only [updTask, if_pos hp]
      have hp' : ((f u).goalId == g && (f u).id == i) = true := by
        rw [(hid u).1, (hid u).2]
        exact hp
      simp only [List.find?_cons, hp']
    · rw [Bool.not_eq_true] at hp
      simp only [List.find?_cons, hp] at h
      simp only [updTask]
      rw [if_neg (by simp [hp])]
      simp only [List.find?_cons, hp]
      exact ih h

theorem filter_updTask {g : Nat} {i : String} (f : Task → Task) (q : Task → Bool) :
    ∀ l : List Task,
      (∀ u ∈ l, (u.goalId == g && u.id == i) = true → q u = false ∧ q (f u) = false) →
      (updTask g i f l).filter q = l.filter q := by
  intro l
  induction l with
  | nil => intro _; rfl
  | cons u us ih =>
    intro hcond
    by_cases hp : (u.goalId == g && u.id == i) = true
    · simp only [updTask, if_pos hp]
      obtain ⟨hq, hqf⟩ := hcond u (List.mem_cons_self _ _) hp
      rw [List.filter_cons, List.filter_cons, hq, hqf]
      simp
    · rw [Bool.not_eq_true] at hp
      simp only [updTask]
      rw [if_neg (by simp [hp])]
      simp only [List.filter_cons,
        ih (fun v hv hvp => hcond v (List.mem_cons_of_mem _ hv) hvp)]

theorem mkId_some_ne (p : String) (n : Nat) : mkId (some p) n ≠ p := by
  intro h
  have hlen := congrArg String.length h
  simp only [mkId, String.length_append] at hlen
  have h1 : ("." : String).length = 1 := rfl
  omega

theorem inv_no_self_parent {s : State} (hinv : Inv s) :
    ∀ u ∈ s.tasks, ∀ p, u.id = p → u.parentId ≠ some p := by
  intro u hu p hid hpar
  obtain ⟨n, _, _, hmk⟩ := hinv.seqBound u hu
  rw [hpar, hid] at hmk
  exact mkId_some_ne p n hmk.symm

theorem allC_iff (s : State) (g : Nat) (p : String) :
    (!(childrenLive s g p).isEmpty && (childrenLive s g p).all (·.isComplete)) = true ↔
      (childrenLive s g p ≠ [] ∧ ∀ k ∈ childrenLive s g p, k.isComplete = true) := by
  rw [Bool.and_eq_true, Bool.not_eq_true', List.all_eq_true]
  constructor
  · rintro ⟨h1, h2⟩
    refine ⟨?_, h2⟩
    intro hnil
    rw [hnil] at h1
    simp at h1
  · rintro ⟨h1, h2⟩
    refine ⟨?_, h2⟩
    cases hk : childrenLive s g p with
    | nil => exact absurd hk h1
    | cons a l => rfl

/-- The non-deleted children of `p` are unchanged by a flag rewrite of
the `p` record itself (a task cannot be its own child in a valid state). -/
theorem childrenLive_updTask {s : State} {g : Nat} {p : String}
    (hinv : Inv s) (f : Task → Task)
    (hpres : ∀ u, (f u).goalId = u.goalId ∧ (f u).parentId = u.parentId ∧
      (f u).deleted = u.deleted) :
    childrenLive { s with tasks := updTask g p f s.tasks } g p =
      childrenLive s g p := by
  unfold childrenLive
  refine filter_updTask f _ s.tasks ?_
  intro u hu hmatch
  simp only [Bool.and_eq_true, beq_iff_eq] at hmatch
  have hne : u.parentId ≠ some p := inv_no_self_parent hinv u hu p hmatch.2
  have hb : (u.parentId == some p) = false := beq_eq_false_iff_ne.mpr hne
  constructor
  · simp [hb]
  · have hb' : ((f u).parentId == some p) = false := by
      rw [(hpres u).2.1]
      exact hb
    simp [hb']

/-- C3 amended: I5 is not an invariant of all reachable states (the
counterexample shows task creation breaks it); what the code does
guarantee is local: immediately after `updateParentTaskStatus` runs on an
existing parent, that parent satisfies the I5 biconditional with respect
to its non-deleted children. -/
theorem claim_C3_amended {s : State} {g : Nat} {p : String} {now : Nat} {parent : Task}
    (hinv : Inv s) (hf : findTask s g p = some parent) :
    ∃ parent', findTask (updateParentTaskStatus s g (some p) now).1 g p = some parent' ∧
      (parent'.isComplete = true ↔
        (childrenLive (updateParentTaskStatus s g (some p) now).1 g p ≠ [] ∧
          ∀ k ∈ childrenLive (updateParentTaskStatus s g (some p) now).1 g p,
            k.isComplete = true)) := by
  have hspec := (upts_spec s g (some p) now).2.2.1 p parent rfl hf
  cases hac : (!(childrenLive s g p).isEmpty && (childrenLive s g p).all (·.isComplete)) with
  | true =>
    cases hpc : parent.isComplete with
    | false =>
      rw [hspec.1 hac hpc]
      refine ⟨{ parent with isComplete := true, updatedAt := now }, ?_, ?_⟩
      · exact find?_updTask
          (fun u => { u with isComplete := true, updatedAt := now })
          (fun u => ⟨rfl, rfl⟩) hf
      · have hch := childrenLive_updTask hinv
          (fun u => { u with isComplete := true, updatedAt := now })
          (fun u => ⟨rfl, rfl, rfl⟩) (g := g) (p := p)
        rw [hch]
        simpa using (allC_iff s g p).mp hac
    | true =>
      rw [hspec.2.2 (hac.trans hpc.symm)]
      refine ⟨parent, hf, ?_⟩
      rw [hpc]
      simpa using (allC_iff s g p).mp hac
  | false =>
    cases hpc : parent.isComplete with
    | true =>
      rw [hspec.2.1 hac hpc]
      refine ⟨{ parent with isComplete := false, updatedAt := now }, ?_, ?_⟩
      · exact find?_updTask
          (fun u => { u with isComplete := false, updatedAt := now })
          (fun u => ⟨rfl, rfl⟩) hf
      · have hch := childrenLive_updTask hinv
          (fun u => { u with isComplete := false, updatedAt := now })
          (fun u => ⟨rfl, rfl, rfl⟩) (g := g) (p := p)
        rw [hch]
        constructor
        · intro h
          exact absurd h (by simp)
        · intro h
          exact absurd ((allC_iff s g p).mpr h) (by rw [hac]; simp)
    | false =>
      rw [hspec.2.2 (hac.trans hpc.symm)]
      refine ⟨parent, hf, ?_⟩
      rw [hpc]
      constructor
      · intro h; exact absurd h (by simp)
      · intro h
        exact absurd ((allC_iff s g p).mpr h) (by rw [hac]; simp)

theorem claim_C3_amended_witness :
    (findTask stC3 1 "1" = some (⟨"1", 1, none, "a", "a", true, false, 1, 3⟩ : Task)) ∧
    (∃ parent', findTask (updateParentTaskStatus stC3 1 (some "1") 8).1 1 "1"
        = some parent' ∧
      (parent'.isComplete = true ↔
        (childrenLive (updateParentTaskStatus stC3 1 (some "1") 8).1 1 "1" ≠ [] ∧
          ∀ k ∈ childrenLive (updateParentTaskStatus stC3 1 (some "1") 8).1 1 "1",
            k.isComplete = true))) :=
  ⟨by decide, claim_C3_amended (reachable_inv reach_stC3)
    (show findTask stC3 1 "1"
        = some (⟨"1", 1, none, "a", "a", true, false, 1, 3⟩ : Task) by decide)⟩

/-! ## Claim C5: the silent skip in completeTasksStatus -/

/-- C5 counterexample: in `stC5` the requested task `"1"` has the
incomplete non-deleted child `"1.3"` at every point of the call (and
`"1.2"` at visit time), so it is "skipped" — absent from `updatedTasks` —
yet the call still flips its `isComplete` from true to false and bumps its
`updatedAt` in the parent-recheck phase, because `"1"` is the recorded
parent of the other requested task `"1.2"`. -/
theorem claim_C5_counterexample :
    (findTask stC5 1 "1").map (fun t => (t.isComplete, t.updatedAt)) = some (true, 3) ∧
    (childrenLive stC5 1 "1").map (fun t => (t.id, t.isComplete)) =
      [("1.1", true), ("1.2", false), ("1.3", false)] ∧
    completeTasksStatus stC5 1 ["1", "1.2"] false 6 =
      .ok (runC5.1, runC5.2.1, runC5.2.2) ∧
    runC5.2.1.map (·.id) = ["1.2"] ∧
    (findTask runC5.1 1 "1").map (fun t => (t.isComplete, t.updatedAt)) =
      some (false, 6) :=
  ⟨by decide, by decide, by rfl, by decide, by decide⟩

/-- C5 amended: with `completeChildren` false, the visit of a task with an
incomplete non-deleted direct child is a complete no-op — state,
`updatedTasks` and `parentsToCheck` are all unchanged and there is no
recursion — so the task is reported only by omission; the task may
nonetheless be rewritten later by the parent-recheck phase when it is the
recorded parent of another requested task. -/
theorem claim_C5_amended {g now : Nat} {s : State} {upd : List TaskResponse}
    {parents : List String} {tid : String} {t : Task} (fuel : Nat)
    (hf : findTask s g tid = some t)
    (hk : ∃ k ∈ childrenLive s g tid, k.isComplete = false) :
    ctVisit g now false (fuel + 1) tid (s, upd, parents) = (s, upd, parents) := by
  simp only [ctVisit, hf]
  rw [if_neg (by simp)]
  obtain ⟨k, hkm, hki⟩ := hk
  have hall : (childrenLive s g tid).all (·.isComplete) = false := by
    rw [List.all_eq_false]
    exact ⟨k, hkm, by simp [hki]⟩
  rw [if_pos (by rw [hall]; rfl)]

theorem claim_C5_amended_witness :
    (∃ k ∈ childrenLive stC5 1 "1", k.isComplete = false) ∧
    ctVisit 1 6 false 5 "1" (stC5, [], []) = (stC5, [], []) := by
  refine ⟨⟨⟨"1.2", 1, some "1", "c", "c", false, false, 4, 4⟩, by decide, rfl⟩, ?_⟩
  exact claim_C5_amended 4
    (show findTask stC5 1 "1"
        = some (⟨"1", 1, none, "a", "a", true, false, 1, 3⟩ : Task) by decide)
    ⟨⟨"1.2", 1, some "1", "c", "c", false, false, 4, 4⟩, by decide, rfl⟩

/-! ## Claim C9: addTask is pure insertion -/

theorem find?_append_left {α : Type} {p : α → Bool} :
    ∀ {l1 : List α} {a : α}, l1.find? p = some a → ∀ l2, (l1 ++ l2).find? p = some a := by
  intro l1
  induction l1 with
  | nil => intro a h _; simp at h
  | cons u us ih =>
    intro a h l2
    rw [List.cons_append]
    by_cases hp : p u = true
    · simp only [List.find?_cons, hp] at h ⊢
      exact h
    · rw [Bool.not_eq_true] at hp
      simp only [List.find?_cons, hp] at h ⊢
      exact ih h l2

/-- C9: a successful `addTask` only appends the freshly minted record to
the task collection: every pre-existing record is still present,
unchanged in every field, and every `findOne` lookup that succeeded before
returns the very same record after — in particular a complete parent
stays complete when an incomplete child is created under it, since task
creation triggers no completion propagation. -/
theorem claim_C9 {s : State} {g : Nat} {pid : Option String} {ti de : String}
    {now : Nat} {s' : State} {r : TaskResponse}
    (h : addTask s g pid ti de now = .ok (s', r)) :
    (∃ tn, s'.tasks = s.tasks ++ [tn]) ∧
    (∀ t ∈ s.tasks, t ∈ s'.tasks) ∧
    (∀ g0 i0 u, findTask s g0 i0 = some u → findTask s' g0 i0 = some u) ∧
    (∀ p parent, pid = some p → findTask s g p = some parent →
      parent.isComplete = true → findTask s' g p = some parent) := by
  obtain ⟨hplan, hpar, hout⟩ := addTask_ok h
  rw [Prod.ext_iff] at hout
  have hst : s'.tasks = s.tasks ++
      [⟨mkId pid (s.counters g (parentKey pid) + 1), g, pid, ti, de,
        false, false, now, now⟩] := by
    rw [show s' = _ from hout.1]
  have hfind : ∀ g0 i0 u, findTask s g0 i0 = some u → findTask s' g0 i0 = some u := by
    intro g0 i0 u hu
    unfold findTask at hu ⊢
    rw [hst]
    exact find?_append_left hu _
  refine ⟨⟨_, hst⟩, ?_, hfind, ?_⟩
  · intro t ht
    rw [hst]
    exact List.mem_append.mpr (Or.inl ht)
  · intro p parent _ hfp _
    exact hfind g p parent hfp

theorem claim_C9_witness :
    addTask c3a 1 (some "1") "c" "c" 4 =
      .ok (stC3, (getOk (addTask c3a 1 (some "1") "c" "c" 4) dfltAdd).2) ∧
    (findTask c3a 1 "1").map (·.isComplete) = some true ∧
    findTask stC3 1 "1" = some (⟨"1", 1, none, "a", "a", true, false, 1, 3⟩ : Task) := by
  refine ⟨rfl, by decide, ?_⟩
  exact (claim_C9 (show addTask c3a 1 (some "1") "c" "c" 4
      = .ok (stC3, (getOk (addTask c3a 1 (some "1") "c" "c" 4) dfltAdd).2)
      from rfl)).2.2.2 "1" _ rfl
    (show findTask c3a 1 "1"
        = some (⟨"1", 1, none, "a", "a", true, false, 1, 3⟩ : Task) by decide) rfl

/-! ## Claim C7: idempotence of soft deletion -/

theorem reach_stC2 : Reachable stC2 :=
  .step reach_sA2
    (.remove sA2 1 ["1.1"] false 3
      (getOk (removeTasks sA2 1 ["1.1"] false 3) dfltRm) rfl)

theorem reach_stC7 : Reachable stC7 :=
  .step reach_sA2
    (.remove sA2 1 ["1"] true 3
      (getOk (removeTasks sA2 1 ["1"] true 3) dfltRm) rfl)

/-- C7 counterexample: in the reachable state `stC7` both `"1"` and its
child `"1.1"` are already soft-deleted, yet including the already-deleted
`"1"` in a subsequent `removeTasks` without `deleteChildren` raises the
HasChildren error instead of being a no-op, because the validation counts
the (deleted) child. -/
theorem claim_C7_counterexample :
    (findTask stC7 1 "1").map (·.deleted) = some true ∧
    removeTasks stC7 1 ["1"] false 4 = .error .hasChildren :=
  ⟨by decide, by rfl⟩

/-- Two tasks of the same goal with the same id are the same record. -/
theorem inv_unique {s : State} (hinv : Inv s) {a b : Task}
    (ha : a ∈ s.tasks) (hb : b ∈ s.tasks) (hg : a.goalId = b.goalId)
    (hi : a.id = b.id) : a = b := by
  by_contra hne
  have hsym : Symmetric (fun a b : Task => a.goalId = b.goalId → a.id ≠ b.id) := by
    intro x y hxy he hid
    exact hxy he.symm hid.symm
  exact hinv.keyed.forall hsym ha hb hne hg hi

theorem find?_rel {R : Task → Task → Prop} {q : Task → Bool}
    (hco : ∀ a b, R a b → q a = q b) :
    ∀ {l l' : List Task}, List.Forall₂ R l l' → ∀ {t}, l.find? q = some t →
      ∃ t', l'.find? q = some t' ∧ R t t' := by
  intro l l' hf
  induction hf with
  | nil => intro t h; simp at h
  | cons r hr ih =>
    intro t h
    rename_i a b l1 l2
    by_cases hp : q a = true
    · simp only [List.find?_cons, hp] at h
      injection h with h
      subst h
      exact ⟨b, by simp only [List.find?_cons, (hco _ _ r) ▸ hp], r⟩
    · rw [Bool.not_eq_true] at hp
      simp only [List.find?_cons, hp] at h
      obtain ⟨t', ht', hrt⟩ := ih h
      exact ⟨t', by simp only [List.find?_cons, (hco _ _ r) ▸ hp]; exact ht', hrt⟩

/-- C7 amended: whenever `removeTasks` succeeds, an already-deleted task
named in the request is not re-reported: it is absent from `removedTasks`,
and the deletion traversal leaves its record untouched — it stays
soft-deleted with id, goal, parent, title, description and creation time
unchanged. The call is not always a complete no-op for it, though: a
deleted task that is the recorded parent of another visited task can
still have its `isComplete` flipped and its `updatedAt` set to the call's
timestamp by the recheck pass; when the task has no direct children at
all it is never a recorded parent and its record survives the entire call
identically. A deleted task that still has direct children can instead
make a call without `deleteChildren` fail HasChildren (counterexample). -/
theorem claim_C7_amended {s : State} {g : Nat} {ids : List String} {dc : Bool}
    {now : Nat} {out} {t : Task}
    (hinv : Inv s) (hok : removeTasks s g ids dc now = .ok out)
    (ht : findTask s g t.id = some t) (hdel : t.deleted = true) :
    (∀ r ∈ out.2.1, r.id ≠ t.id) ∧
    (∃ t2, findTask out.1 g t.id = some t2 ∧ ShapeEq t t2 ∧ t2.deleted = true ∧
      (t2 = t ∨ t2.updatedAt = now)) ∧
    (childrenAll s g t.id = [] → findTask out.1 g t.id = some t) := by
  unfold removeTasks at hok
  cases hall : removeTasksAll s g ids dc now with
  | error e => rw [hall] at hok; simp [Except.map] at hok
  | ok q =>
    rw [hall] at hok
    simp only [Except.map] at hok
    injection hok with hok
    obtain ⟨_, _, hq⟩ := removeTasksAll_ok hall
    subst hq
    subst hok
    have htm := findTask_pred ht
    have hfold : RmP g s ((sortBy idLe ids).foldl
        (fun a tid => rmVisit g now (s.tasks.length + 1) tid a) (s, [], [])) :=
      foldl_pres_mem _ (fun b tid _ hb => rmVisit_P _ tid b hb) _ (rmP_start g s)
    set acc := (sortBy idLe ids).foldl
        (fun a tid => rmVisit g now (s.tasks.length + 1) tid a) (s, [], []) with hacc
    -- the record survives the deletion pass unchanged
    have hco : ∀ a b, RmRel a b →
        (a.goalId == g && a.id == t.id) = (b.goalId == g && b.id == t.id) := by
      intro a b hab
      rw [hab.1.1, hab.1.2.1]
    obtain ⟨t1, ht1, hrel1⟩ := find?_rel hco hfold.1 ht
    have ht1t : t1 = t := hrel1.2.2 hdel
    rw [ht1t] at ht1
    -- and the recheck pass relates it by RcRel
    have hrc := rmRecheck_master g now acc.2.2 acc.1
    have hco2 : ∀ a b, RcRel g now acc.2.2 a b →
        (a.goalId == g && a.id == t.id) = (b.goalId == g && b.id == t.id) := by
      intro a b hab
      have := rcRel_shape hab
      rw [this.1, this.2.1]
    obtain ⟨t2, ht2, hrel2⟩ := find?_rel hco2 hrc.1 ht1
    refine ⟨?_, ?_, ?_⟩
    · intro r hr hrid
      obtain ⟨a, ha, hag, haid, hadel⟩ := hfold.2.2.2 r hr
      have : a = t := inv_unique hinv ha htm.1 (hag.trans htm.2.1.symm)
        (haid.trans (hrid.trans rfl))
      rw [this] at hadel
      rw [hadel] at hdel
      exact Bool.noConfusion hdel
    · rcases hrel2 with hrel2 | ⟨hg2, hmem2, hshape2, hdeleq2, hupd2⟩
      · have hsh : ShapeEq t t2 := by rw [hrel2]; exact shapeEq_refl t
        have hd2 : t2.deleted = true := by rw [hrel2]; exact hdel
        exact ⟨t2, ht2, hsh, hd2, Or.inl hrel2⟩
      · exact ⟨t2, ht2, hshape2, hdeleq2 ▸ hdel, Or.inr hupd2⟩
    · intro hleaf
      -- the recheck pass never touches it, because it has no children
      have hnotin : t.id ∉ acc.2.2 := by
        intro hin
        obtain ⟨u, hu, hug, hupar⟩ := hfold.2.2.1 t.id hin
        have : u ∈ childrenAll s g t.id := by
          unfold childrenAll
          rw [List.mem_filter]
          exact ⟨hu, by simp [hug, hupar]⟩
        rw [hleaf] at this
        cases this
      rcases hrel2 with hrel2 | ⟨_, hmem, _⟩
      · subst hrel2
        exact ht2
      · exact absurd hmem hnotin

theorem claim_C7_amended_witness :
    (findTask stC2 1 "1.1" =
      some (⟨"1.1", 1, some "1", "b", "b", false, true, 2, 3⟩ : Task)) ∧
    ((∀ r ∈ (getOk (removeTasks stC2 1 ["1.1"] false 9) dfltRm).2.1, r.id ≠ "1.1") ∧
     (∃ t2, findTask (getOk (removeTasks stC2 1 ["1.1"] false 9) dfltRm).1 1 "1.1"
         = some t2 ∧
       ShapeEq (⟨"1.1", 1, some "1", "b", "b", false, true, 2, 3⟩ : Task) t2 ∧
       t2.deleted = true ∧
       (t2 = (⟨"1.1", 1, some "1", "b", "b", false, true, 2, 3⟩ : Task) ∨
         t2.updatedAt = 9)) ∧
     (childrenAll stC2 1 "1.1" = [] →
       findTask (getOk (removeTasks stC2 1 ["1.1"] false 9) dfltRm).1 1 "1.1" =
         some (⟨"1.1", 1, some "1", "b", "b", false, true, 2, 3⟩ : Task))) := by
  refine ⟨by decide, ?_⟩
  exact claim_C7_amended (t := ⟨"1.1", 1, some "1", "b", "b", false, true, 2, 3⟩)
    (reachable_inv reach_stC2)
    (show removeTasks stC2 1 ["1.1"] false 9
        = .ok (getOk (removeTasks stC2 1 ["1.1"] false 9) dfltRm) from rfl)
    (by decide) rfl

/-! ## Claim C8: getTasks is duplicate-free and hierarchically sorted -/

theorem grc_subset (pool : List Task) :
    ∀ (fuel : Nat) (pid : String) (x : Task), x ∈ grc pool fuel pid → x ∈ pool := by
  intro fuel
  induction fuel with
  | zero => intro pid x h; cases h
  | succ fuel ih =>
    intro pid x h
    simp only [grc] at h
    refine foldl_pres_mem (P := fun (a : List Task) => ∀ y ∈ a, y ∈ pool)
      _ ?_ [] (fun y hy => absurd hy (List.not_mem_nil y)) x h
    intro a c hc ha y hy
    rcases List.mem_append.mp hy with hy | hy
    · exact ha y hy
    · rcases List.mem_cons.mp hy with hy | hy
      · exact hy ▸ (List.mem_filter.mp hc).1
      · exact ih c.id y hy

theorem pushChildren_subset (P : Task → Prop) (q : Task → List Task)
    (hq : ∀ t x, x ∈ q t → P x) :
    ∀ (l acc : List Task), (∀ x ∈ acc, P x) →
      ∀ x ∈ l.foldl (fun a t => a ++ q t) acc, P x := by
  intro l acc hacc
  refine foldl_pres_mem (P := fun (a : List Task) => ∀ y ∈ a, P y) l ?_ acc hacc
  intro a t _ ha y hy
  rcases List.mem_append.mp hy with hy | hy
  · exact ha y hy
  · exact hq t y hy

theorem pool_mem (s : State) (g : Nat) (inclDel : Bool) :
    ∀ y ∈ (if inclDel then s.tasks.filter (fun t => t.goalId == g)
        else (s.tasks.filter fun t => t.goalId == g).filter fun t => !t.deleted),
      y ∈ s.tasks ∧ y.goalId = g := by
  intro y hy
  by_cases hd : inclDel = true
  · rw [if_pos hd] at hy
    have h2 := List.mem_filter.mp hy
    exact ⟨h2.1, by simpa using h2.2⟩
  · rw [if_neg hd] at hy
    have h2 := List.mem_filter.mp (List.mem_filter.mp hy).1
    exact ⟨h2.1, by simpa using h2.2⟩

theorem sorted_nodup_output (s : State) (hinv : Inv s) (g : Nat) (l : List Task)
    (hsub : ∀ x ∈ l, x ∈ s.tasks ∧ x.goalId = g) :
    (((sortBy taskLe (dedupFirst l)).map Task.toResponse).map TaskResponse.id).Nodup ∧
    List.Pairwise (fun a b => idLe a.id b.id = true)
      ((sortBy taskLe (dedupFirst l)).map Task.toResponse) := by
  have hmem : ∀ x ∈ sortBy taskLe (dedupFirst l), x ∈ s.tasks ∧ x.goalId = g := by
    intro x hx
    exact hsub x (dedupFirst_subset (((sortBy_perm taskLe (dedupFirst l)).mem_iff).mp hx))
  constructor
  · have hnd : (sortBy taskLe (dedupFirst l)).Nodup :=
      ((sortBy_perm taskLe (dedupFirst l)).nodup_iff).mpr (dedupFirst_nodup l)
    have hnd2 : ((sortBy taskLe (dedupFirst l)).map (fun t => t.id)).Nodup := by
      refine List.Nodup.map_on ?_ hnd
      intro a ha b hb hid
      exact inv_unique hinv (hmem a ha).1 (hmem b hb).1
        (((hmem a ha).2).trans ((hmem b hb).2).symm) hid
    have hms : ((sortBy taskLe (dedupFirst l)).map Task.toResponse).map TaskResponse.id
        = (sortBy taskLe (dedupFirst l)).map (fun t => t.id) := by
      rw [List.map_map]; rfl
    rw [hms]; exact hnd2
  · have hp := sortBy_sorted taskLe_total
      (fun h1 h2 => taskLe_trans h1 h2) (dedupFirst l)
    refine List.Pairwise.map Task.toResponse ?_ hp
    intro a b hab
    exact hab

/-- C8: every array returned by `getTasks` is duplicate-free (no two entries
share an id) and sorted in hierarchical numeric order: ids are compared by
splitting on `.` and comparing corresponding segments as integers left to
right, a proper prefix sorting first. -/
theorem claim_C8 (s : State) (hinv : Inv s) (g : Nat) (tids : Option (List String))
    (incl : Incl) (inclDel : Bool) :
    ((getTasks s g tids incl inclDel).map TaskResponse.id).Nodup ∧
    List.Pairwise (fun a b => idLe a.id b.id = true)
      (getTasks s g tids incl inclDel) := by
  simp only [getTasks]
  refine sorted_nodup_output s hinv g _ ?_
  intro x hx
  by_cases hids : (!(tids.getD []).isEmpty) = true
  · rw [if_pos hids] at hx
    cases incl with
    | nothing => exact pool_mem s g inclDel x (List.mem_filter.mp hx).1
    | firstLevel =>
      rcases List.mem_append.mp hx with hx | hx
      · exact pool_mem s g inclDel x (List.mem_filter.mp hx).1
      · refine pushChildren_subset (fun y => y ∈ s.tasks ∧ y.goalId = g) _
          (fun t y hy => pool_mem s g inclDel y (List.mem_filter.mp hy).1) _ []
          (fun y hy => absurd hy (List.not_mem_nil y)) x hx
    | recursive =>
      rcases List.mem_append.mp hx with hx | hx
      · exact pool_mem s g inclDel x (List.mem_filter.mp hx).1
      · refine pushChildren_subset (fun y => y ∈ s.tasks ∧ y.goalId = g) _
          (fun t y hy => pool_mem s g inclDel y (grc_subset _ _ _ y hy)) _ []
          (fun y hy => absurd hy (List.not_mem_nil y)) x hx
  · rw [if_neg hids] at hx
    cases incl with
    | nothing => exact pool_mem s g inclDel x (List.mem_filter.mp hx).1
    | firstLevel =>
      rcases List.mem_append.mp hx with hx | hx
      · exact pool_mem s g inclDel x (List.mem_filter.mp hx).1
      · refine pushChildren_subset (fun y => y ∈ s.tasks ∧ y.goalId = g) _
          (fun t y hy => pool_mem s g inclDel y (List.mem_filter.mp hy).1) _ []
          (fun y hy => absurd hy (List.not_mem_nil y)) x hx
    | recursive => exact pool_mem s g inclDel x hx

theorem claim_C8_witness :
    ((getTasks stC3 1 none .recursive true).map TaskResponse.id).Nodup ∧
    List.Pairwise (fun a b => idLe a.id b.id = true)
      (getTasks stC3 1 none .recursive true) :=
  claim_C8 stC3 (reachable_inv reach_stC3) 1 none .recursive true

/-! ## Claim C6: which parents are recorded for recheck by removeTasks -/

theorem rmVisit_ps_mono {g now : Nat} (p : String) :
    ∀ (fuel : Nat) (tid : String) (acc : State × List TaskResponse × List String),
      p ∈ acc.2.2 → p ∈ (rmVisit g now fuel tid acc).2.2 := by
  intro fuel
  induction fuel with
  | zero => intro tid acc h; simpa only [rmVisit] using h
  | succ fuel ih =>
    intro tid acc h
    obtain ⟨s1, rem, ps⟩ := acc
    simp only [rmVisit]
    cases hft : findTask s1 g tid with
    | none => exact h
    | some t =>
      dsimp only
      have h1 : p ∈ (match t.parentId with
          | some q => if q ∈ ps then ps else ps ++ [q]
          | none => ps) := by
        cases t.parentId with
        | none => exact h
        | some q =>
          by_cases hq : q ∈ ps
          · simpa [hq] using h
          · simp only [if_neg hq]
            exact List.mem_append.mpr (Or.inl h)
      have hfold : p ∈ (((childrenAll s1 g tid).map Task.id).foldl
          (fun a k => rmVisit g now fuel k a)
          (s1, rem, (match t.parentId with
            | some q => if q ∈ ps then ps else ps ++ [q]
            | none => ps))).2.2 :=
        foldl_pres_mem
          (P := fun (b : State × List TaskResponse × List String) => p ∈ b.2.2)
          _ (fun b k _ hb => ih k b hb) _ h1
      set acc2 := ((childrenAll s1 g tid).map Task.id).foldl
          (fun a k => rmVisit g now fuel k a)
          (s1, rem, (match t.parentId with
            | some q => if q ∈ ps then ps else ps ++ [q]
            | none => ps)) with hacc2
      cases hft2 : findTask acc2.1 g tid with
      | none => exact hfold
      | some t2 =>
        dsimp only
        by_cases hd : t2.deleted = true
        · rw [if_pos hd]; exact hfold
        · rw [if_neg hd]; exact hfold

theorem rmVisit_push {g now : Nat} (fuel : Nat) (tid : String)
    (acc : State × List TaskResponse × List String) {t : Task}
    (hft : findTask acc.1 g tid = some t) {p : String} (hp : t.parentId = some p) :
    p ∈ (rmVisit g now (fuel + 1) tid acc).2.2 := by
  obtain ⟨s1, rem, ps⟩ := acc
  have hft1 : findTask s1 g tid = some t := hft
  simp only [rmVisit, hft1, hp]
  have h1 : p ∈ (if p ∈ ps then ps else ps ++ [p]) := by
    by_cases hq : p ∈ ps
    · rw [if_pos hq]; exact hq
    · rw [if_neg hq]
      exact List.mem_append.mpr (Or.inr (List.mem_singleton.mpr rfl))
  have hfold : p ∈ (((childrenAll s1 g tid).map Task.id).foldl
      (fun a k => rmVisit g now fuel k a)
      (s1, rem, if p ∈ ps then ps else ps ++ [p])).2.2 :=
    foldl_pres_mem
      (P := fun (b : State × List TaskResponse × List String) => p ∈ b.2.2)
      _ (fun b k _ hb => rmVisit_ps_mono p fuel k b hb) _ h1
  set acc2 := ((childrenAll s1 g tid).map Task.id).foldl
      (fun a k => rmVisit g now fuel k a)
      (s1, rem, if p ∈ ps then ps else ps ++ [p]) with hacc2
  cases hft2 : findTask acc2.1 g tid with
  | none => exact hfold
  | some t2 =>
    dsimp only
    by_cases hd : t2.deleted = true
    · rw [if_pos hd]; exact hfold
    · rw [if_neg hd]; exact hfold

theorem rmP_push {g : Nat} {s0 s1 : State} {rem : List TaskResponse}
    {ps : List String} {tid : String} {t : Task}
    (h : RmP g s0 (s1, rem, ps)) (hft : findTask s1 g tid = some t) :
    RmP g s0 (s1, rem, (match t.parentId with
      | some q => if q ∈ ps then ps else ps ++ [q]
      | none => ps)) := by
  obtain ⟨hrel, honly, hpar, hrem⟩ := h
  refine ⟨hrel, honly, ?_, hrem⟩
  have ht := findTask_pred hft
  obtain ⟨a0, ha0, hrel0⟩ := forall₂_mem_right hrel ht.1
  cases htp : t.parentId with
  | none => exact hpar
  | some q =>
    by_cases hq : q ∈ ps
    · simpa [hq] using hpar
    · simp only [if_neg hq]
      intro p hp
      rcases List.mem_append.mp hp with hp | hp
      · exact hpar p hp
      · have hpq : p = q := by simpa using hp
        subst hpq
        refine ⟨a0, ha0, ?_, ?_⟩
        · rw [hrel0.1.2.1, ht.2.1]
        · rw [hrel0.1.2.2.1, htp]

theorem foldl_visit {α β : Type} {P Q : β → Prop} {f : β → α → β} :
    ∀ (l : List α) (a : α), a ∈ l →
      (∀ b, ∀ x ∈ l, Q b → Q (f b x)) →
      (∀ b, ∀ x ∈ l, P b → P (f b x)) →
      (∀ b, Q b → P (f b a)) →
      ∀ b, Q b → P (l.foldl f b) := by
  intro l
  induction l with
  | nil => intro a ha; cases ha
  | cons x l ih =>
    intro a ha hQ hP hPa b hb
    simp only [List.foldl_cons]
    rcases List.mem_cons.mp ha with ha | ha
    · subst ha
      exact foldl_pres_mem l
        (fun c y hy hc => hP c y (List.mem_cons_of_mem _ hy) hc) _ (hPa b hb)
    · exact ih a ha (fun c y hy => hQ c y (List.mem_cons_of_mem _ hy))
        (fun c y hy => hP c y (List.mem_cons_of_mem _ hy)) hPa
        (f b x) (hQ b x (List.mem_cons_self x l) hb)

theorem rmVisit_push_child {g now m : Nat} {s : State} (hinv : Inv s)
    (tid : String) {t c : Task}
    (hft : findTask s g tid = some t) (hc : c ∈ childrenAll s g tid)
    (acc : State × List TaskResponse × List String) (h : RmP g s acc) :
    tid ∈ (rmVisit g now (m + 1 + 1) tid acc).2.2 := by
  obtain ⟨s1, rem, ps⟩ := acc
  obtain ⟨n, hn⟩ : ∃ n, n = m + 1 := ⟨m + 1, rfl⟩
  rw [← hn]
  have hco : ∀ a b, RmRel a b →
      (a.goalId == g && a.id == tid) = (b.goalId == g && b.id == tid) := by
    intro a b hab; rw [hab.1.1, hab.1.2.1]
  obtain ⟨t1, ht1, hrelt⟩ := find?_rel hco h.1 hft
  have hft1 : findTask s1 g tid = some t1 := ht1
  simp only [rmVisit, hft1]
  have hcm := List.mem_filter.mp hc
  have hcp : c.goalId = g ∧ c.parentId = some tid := by
    have h3 := hcm.2
    simp only [Bool.and_eq_true, beq_iff_eq] at h3
    exact h3
  have hfc : findTask s g c.id = some c := by
    cases hfind : findTask s g c.id with
    | none =>
      exfalso
      have h4 := List.find?_eq_none.mp hfind c hcm.1
      simp [hcp.1] at h4
    | some c2 =>
      have hceq : c2 = c := inv_unique hinv (findTask_pred hfind).1 hcm.1
        ((findTask_pred hfind).2.1.trans hcp.1.symm) (findTask_pred hfind).2.2
      rw [hceq]
  have hcoc : ∀ a b, RmRel a b →
      (a.goalId == g && a.id == c.id) = (b.goalId == g && b.id == c.id) := by
    intro a b hab; rw [hab.1.1, hab.1.2.1]
  obtain ⟨c1, hc1mem, hrelc⟩ := forall₂_mem_left h.1 hcm.1
  have hc1in : c1 ∈ childrenAll s1 g tid := by
    refine List.mem_filter.mpr ⟨hc1mem, ?_⟩
    simp only [Bool.and_eq_true, beq_iff_eq]
    exact ⟨hrelc.1.2.1 ▸ hcp.1, hrelc.1.2.2.1 ▸ hcp.2⟩
  have hkid : c1.id ∈ (childrenAll s1 g tid).map Task.id :=
    List.mem_map_of_mem Task.id hc1in
  have hinit : RmP g s (s1, rem, (match t1.parentId with
      | some q => if q ∈ ps then ps else ps ++ [q]
      | none => ps)) := rmP_push h hft1
  have hfold : tid ∈ (((childrenAll s1 g tid).map Task.id).foldl
      (fun a k => rmVisit g now n k a)
      (s1, rem, (match t1.parentId with
        | some q => if q ∈ ps then ps else ps ++ [q]
        | none => ps))).2.2 := by
    refine foldl_visit
      (P := fun (b : State × List TaskResponse × List String) => tid ∈ b.2.2)
      (Q := RmP g s) _ c1.id hkid
      (fun b x hx hb => rmVisit_P _ x b hb)
      (fun b x hx hb => rmVisit_ps_mono tid _ x b hb)
      ?_ _ hinit
    intro b hb
    obtain ⟨c2, hc2, hrelc2⟩ := find?_rel hcoc hb.1 hfc
    rw [show c1.id = c.id from (hrelc.1.1).symm, hn]
    exact rmVisit_push m c.id b hc2 (hrelc2.1.2.2.1 ▸ hcp.2)
  set acc2 := ((childrenAll s1 g tid).map Task.id).foldl
      (fun a k => rmVisit g now n k a)
      (s1, rem, (match t1.parentId with
        | some q => if q ∈ ps then ps else ps ++ [q]
        | none => ps)) with hacc2
  cases hft2 : findTask acc2.1 g tid with
  | none => exact hfold
  | some t2 =>
    dsimp only
    by_cases hd : t2.deleted = true
    · rw [if_pos hd]; exact hfold
    · rw [if_neg hd]; exact hfold

theorem reach_sA3 : Reachable sA3 :=
  .step reach_sA2
    (.add sA2 1 (some "1.1") "c" "c" 3 sA3
      (getOk (addTask sA2 1 (some "1.1") "c" "c" 3) dfltAdd).2 rfl)

theorem reach_stC6 : Reachable stC6 :=
  .step reach_sA3
    (.complete sA3 1 ["1"] true 4
      (getOk (completeTasksStatus sA3 1 ["1"] true 4) dfltRm) rfl)

/-- C6 counterexample: in the reachable state `stC6` the whole chain
`"1"`, `"1.1"`, `"1.1.1"` is complete and live, and the single requested
task `"1"` is top-level (its `parentId` is null), so under the claim the
recheck set would be empty; yet the run records `"1"` and `"1.1"` — the
immediate parents of the recursively deleted intermediate descendants —
as parents to recheck, and the recheck pass then rewrites both. -/
theorem claim_C6_counterexample :
    (findTask stC6 1 "1").map Task.parentId = some none ∧
    runC6.2.2.1 = ["1", "1.1"] ∧
    runC6.2.2.2.map (fun r => (r.id, r.isComplete)) = [("1", false), ("1.1", false)] :=
  ⟨rfl, rfl, rfl⟩

/-- C6 amended: the recheck set of `removeTasks` collects the non-null
`parentId` of every task visited by the deletion traversal, not only of
the requested ones: the parent of each requested existing task is
recorded, and whenever a requested existing task has any direct child
(the child being an intermediate or leaf descendant deleted recursively),
that task itself — the child's immediate parent — is recorded too, and is
then rechecked by the parent-status pass. -/
theorem claim_C6_amended {s : State} {g : Nat} {ids : List String} {dc : Bool}
    {now : Nat} {out : State × List TaskResponse × List String × List TaskResponse}
    (hinv : Inv s) (hok : removeTasksAll s g ids dc now = .ok out)
    {tid : String} (htid : tid ∈ ids) {t : Task}
    (hft : findTask s g tid = some t) :
    (∀ p, t.parentId = some p → p ∈ out.2.2.1) ∧
    (∀ c, c ∈ childrenAll s g tid → tid ∈ out.2.2.1) := by
  obtain ⟨hpl, hval, hq⟩ := removeTasksAll_ok hok
  subst hq
  dsimp only
  have htid2 : tid ∈ sortBy idLe ids := ((sortBy_perm idLe ids).mem_iff).mpr htid
  constructor
  · intro p hp
    refine foldl_visit
      (P := fun (b : State × List TaskResponse × List String) => p ∈ b.2.2)
      (Q := RmP g s) _ tid htid2
      (fun b x hx hb => rmVisit_P _ x b hb)
      (fun b x hx hb => rmVisit_ps_mono p _ x b hb)
      ?_ _ (rmP_start g s)
    intro b hb
    have hco : ∀ a b2, RmRel a b2 →
        (a.goalId == g && a.id == tid) = (b2.goalId == g && b2.id == tid) := by
      intro a b2 hab; rw [hab.1.1, hab.1.2.1]
    obtain ⟨t1, ht1, hrelt⟩ := find?_rel hco hb.1 hft
    exact rmVisit_push s.tasks.length tid b ht1 (hrelt.1.2.2.1 ▸ hp)
  · intro c hc
    have h2 : s.tasks.length + 1 = s.tasks.length - 1 + 1 + 1 := by
      have h3 : 0 < s.tasks.length :=
        List.length_pos.mpr (List.ne_nil_of_mem (List.mem_filter.mp hc).1)
      omega
    rw [h2]
    refine foldl_visit
      (P := fun (b : State × List TaskResponse × List String) => tid ∈ b.2.2)
      (Q := RmP g s) _ tid htid2
      (fun b x hx hb => rmVisit_P _ x b hb)
      (fun b x hx hb => rmVisit_ps_mono tid _ x b hb)
      ?_ _ (rmP_start g s)
    intro b hb
    exact rmVisit_push_child hinv tid hft hc b hb

theorem claim_C6_amended_witness :
    childrenAll stC6 1 "1" ≠ [] ∧ "1" ∈ runC6.2.2.1 := by
  refine ⟨by decide, ?_⟩
  have hh := claim_C6_amended
    (t := (⟨"1", 1, none, "a", "a", true, false, 1, 4⟩ : Task))
    (reachable_inv reach_stC6)
    (show removeTasksAll stC6 1 ["1"] true 5 = .ok runC6 from rfl)
    (List.mem_singleton.mpr rfl)
    (by decide)
  exact hh.2 (⟨"1.1", 1, some "1", "b", "b", true, false, 2, 4⟩ : Task) (by decide)

/-! ## Claim C10: completion of deleted descendants -/

theorem find?_updTask_ne {g : Nat} {i j : String} (f : Task → Task)
    (hid : ∀ u, (f u).id = u.id ∧ (f u).goalId = u.goalId) (hne : j ≠ i) :
    ∀ l : List Task, (updTask g i f l).find? (fun u => u.goalId == g && u.id == j)
      = l.find? (fun u => u.goalId == g && u.id == j) := by
  intro l
  induction l with
  | nil => rfl
  | cons u us ih =>
    simp only [updTask]
    by_cases hp : (u.goalId == g && u.id == i) = true
    · rw [if_pos hp]
      have hui : u.id = i := by
        have h2 := hp
        simp only [Bool.and_eq_true, beq_iff_eq] at h2
        exact h2.2
      have hu : (u.goalId == g && u.id == j) = false := by
        have : (u.id == j) = false := by
          simp only [beq_eq_false_iff_ne, ne_eq]
          rw [hui]
          exact fun h2 => hne h2.symm
        simp [this]
      have hfu : ((f u).goalId == g && (f u).id == j) = false := by
        have : ((f u).id == j) = false := by
          simp only [beq_eq_false_iff_ne, ne_eq]
          rw [(hid u).1, hui]
          exact fun h2 => hne h2.symm
        simp [this]
      simp only [List.find?_cons, hu, hfu]
    · rw [if_neg hp]
      by_cases hq : (u.goalId == g && u.id == j) = true
      · simp only [List.find?_cons, hq]
      · rw [Bool.not_eq_true] at hq
        simp only [List.find?_cons, hq]
        exact ih

theorem ctVisit_upd_mono {g now : Nat} {cc : Bool} (r : TaskResponse) :
    ∀ (fuel : Nat) (tid : String) (acc : State × List TaskResponse × List String),
      r ∈ acc.2.1 → r ∈ (ctVisit g now cc fuel tid acc).2.1 := by
  intro fuel
  induction fuel with
  | zero => intro tid acc h; simpa only [ctVisit] using h
  | succ fuel ih =>
    intro tid acc h
    obtain ⟨s1, upd, ps⟩ := acc
    simp only [ctVisit]
    cases hft : findTask s1 g tid with
    | none => exact h
    | some t0 =>
      dsimp only
      by_cases hcc : cc = true
      · rw [if_pos hcc]
        have hfold : r ∈ (((childrenAll s1 g tid).map Task.id).foldl
            (fun a k => ctVisit g now cc fuel k a) (s1, upd, ps)).2.1 :=
          foldl_pres_mem
            (P := fun (b : State × List TaskResponse × List String) => r ∈ b.2.1)
            _ (fun b k _ hb => ih k b hb) _ h
        set acc2 := ((childrenAll s1 g tid).map Task.id).foldl
            (fun a k => ctVisit g now cc fuel k a) (s1, upd, ps) with hacc2
        cases hft2 : findTask acc2.1 g tid with
        | none => exact hfold
        | some t2 =>
          dsimp only
          by_cases hic : (!t2.isComplete) = true
          · rw [if_pos hic]
            cases t2.parentId with
            | none => exact List.mem_append.mpr (Or.inl hfold)
            | some p =>
              dsimp only
              exact List.mem_append.mpr (Or.inl hfold)
          · rw [if_neg hic]
            cases t2.parentId with
            | none => exact hfold
            | some p => dsimp only; exact hfold
      · rw [if_neg hcc]
        by_cases hall : (!(childrenLive s1 g tid).all (fun c => c.isComplete)) = true
        · rw [if_pos hall]; exact h
        · rw [if_neg hall]
          by_cases hic : (!t0.isComplete) = true
          · rw [if_pos hic]
            cases t0.parentId with
            | none => exact List.mem_append.mpr (Or.inl h)
            | some p =>
              dsimp only
              exact List.mem_append.mpr (Or.inl h)
          · rw [if_neg hic]
            cases t0.parentId with
            | none => exact h
            | some p => dsimp only; exact h

theorem compEntry_ps {g : Nat} {i : String}
    (a : State × List TaskResponse × List String) (q : List String)
    (h : CompEntry g i a) : CompEntry g i (a.1, a.2.1, q) :=
  fun x hx hxc => h x hx hxc

theorem compEntry_push {g now : Nat} {i tid : String}
    (acc : State × List TaskResponse × List String) {t2 : Task}
    (h : CompEntry g i acc) (hft2 : findTask acc.1 g tid = some t2) :
    CompEntry g i
      ({ acc.1 with
          tasks := updTask g tid
            (fun u => { u with isComplete := true, updatedAt := now }) acc.1.tasks },
       acc.2.1 ++ [({ t2 with isComplete := true, updatedAt := now } : Task).toResponse],
       acc.2.2) := by
  intro x hx hxc
  by_cases hti : tid = i
  · subst hti
    refine ⟨({ t2 with isComplete := true, updatedAt := now } : Task).toResponse,
      List.mem_append.mpr (Or.inr (List.mem_singleton.mpr rfl)), ?_, rfl⟩
    exact (findTask_pred hft2).2.2
  · have heq := find?_updTask_ne (g := g) (i := tid) (j := i)
      (fun u => { u with isComplete := true, updatedAt := now })
      (fun u => ⟨rfl, rfl⟩) (fun h2 => hti h2.symm) acc.1.tasks
    have hx2 : (updTask g tid
        (fun u => { u with isComplete := true, updatedAt := now })
        acc.1.tasks).find? (fun u => u.goalId == g && u.id == i) = some x := hx
    rw [heq] at hx2
    obtain ⟨r, hr, hrid, hric⟩ := h x hx2 hxc
    exact ⟨r, List.mem_append.mpr (Or.inl hr), hrid, hric⟩

theorem ctVisit_Pc {g now : Nat} {cc : Bool} {i : String} :
    ∀ (fuel : Nat) (tid : String) (acc : State × List TaskResponse × List String),
      CompEntry g i acc → CompEntry g i (ctVisit g now cc fuel tid acc) := by
  intro fuel
  induction fuel with
  | zero => intro tid acc h; simpa only [ctVisit] using h
  | succ fuel ih =>
    intro tid acc h
    obtain ⟨s1, upd, ps⟩ := acc
    simp only [ctVisit]
    cases hft : findTask s1 g tid with
    | none => exact h
    | some t0 =>
      dsimp only
      by_cases hcc : cc = true
      · rw [if_pos hcc]
        have hfold : CompEntry g i (((childrenAll s1 g tid).map Task.id).foldl
            (fun a k => ctVisit g now cc fuel k a) (s1, upd, ps)) :=
          foldl_pres_mem (P := CompEntry g i)
            _ (fun b k _ hb => ih k b hb) _ h
        set acc2 := ((childrenAll s1 g tid).map Task.id).foldl
            (fun a k => ctVisit g now cc fuel k a) (s1, upd, ps) with hacc2
        cases hft2 : findTask acc2.1 g tid with
        | none => exact hfold
        | some t2 =>
          dsimp only
          by_cases hic : (!t2.isComplete) = true
          · rw [if_pos hic]
            cases t2.parentId with
            | none => exact compEntry_push acc2 hfold hft2
            | some p =>
              dsimp only
              exact compEntry_ps _ _ (compEntry_push acc2 hfold hft2)
          · rw [if_neg hic]
            cases t2.parentId with
            | none => exact hfold
            | some p => dsimp only; exact compEntry_ps _ _ hfold
      · rw [if_neg hcc]
        by_cases hall : (!(childrenLive s1 g tid).all (fun c => c.isComplete)) = true
        · rw [if_pos hall]; exact h
        · rw [if_neg hall]
          by_cases hic : (!t0.isComplete) = true
          · rw [if_pos hic]
            cases t0.parentId with
            | none => exact compEntry_push (s1, upd, ps) h hft
            | some p =>
              dsimp only
              exact compEntry_ps _ _ (compEntry_push (s1, upd, ps) h hft)
          · rw [if_neg hic]
            cases t0.parentId with
            | none => exact h
            | some p => dsimp only; exact compEntry_ps _ _ h

theorem ctVisit_hasEntry_mono {g now : Nat} {cc : Bool} {i : String}
    (fuel : Nat) (tid : String) (acc : State × List TaskResponse × List String)
    (h : HasEntry i acc) : HasEntry i (ctVisit g now cc fuel tid acc) := by
  obtain ⟨r, hr, hp⟩ := h
  exact ⟨r, ctVisit_upd_mono r fuel tid acc hr, hp⟩

theorem ctVisit_completes {g now : Nat} {s : State} {c : Task} (fuel : Nat)
    (b : State × List TaskResponse × List String)
    (h : CtP g now s b ∧ CompEntry g c.id b)
    (hfc : findTask s g c.id = some c) :
    HasEntry c.id (ctVisit g now true (fuel + 1) c.id b) := by
  obtain ⟨s1, upd, ps⟩ := b
  have hco : ∀ a b2, CtRel now a b2 →
      (a.goalId == g && a.id == c.id) = (b2.goalId == g && b2.id == c.id) := by
    intro a b2 hab; rw [hab.1.1, hab.1.2.1]
  obtain ⟨c1, hc1, hrelc⟩ := find?_rel hco h.1.1 hfc
  have hfc1 : findTask s1 g c.id = some c1 := hc1
  simp only [ctVisit, hfc1]
  simp only [if_true]
  have hfold : CtP g now s (((childrenAll s1 g c.id).map Task.id).foldl
        (fun a k => ctVisit g now true fuel k a) (s1, upd, ps)) ∧
      CompEntry g c.id (((childrenAll s1 g c.id).map Task.id).foldl
        (fun a k => ctVisit g now true fuel k a) (s1, upd, ps)) :=
    foldl_pres_mem (P := fun (a : State × List TaskResponse × List String) =>
        CtP g now s a ∧ CompEntry g c.id a)
      _ (fun b2 k _ hb => ⟨ctVisit_P fuel k b2 hb.1, ctVisit_Pc fuel k b2 hb.2⟩) _ h
  set acc2 := ((childrenAll s1 g c.id).map Task.id).foldl
      (fun a k => ctVisit g now true fuel k a) (s1, upd, ps) with hacc2
  obtain ⟨c3, hc3, hrelc3⟩ := find?_rel hco hfold.1.1 hfc
  have hfc3 : findTask acc2.1 g c.id = some c3 := hc3
  rw [hfc3]
  dsimp only
  by_cases hic : (!c3.isComplete) = true
  · rw [if_pos hic]
    cases c3.parentId with
    | none =>
      exact ⟨({ c3 with isComplete := true, updatedAt := now } : Task).toResponse,
        List.mem_append.mpr (Or.inr (List.mem_singleton.mpr rfl)),
        (findTask_pred hfc3).2.2, rfl⟩
    | some p =>
      dsimp only
      exact ⟨({ c3 with isComplete := true, updatedAt := now } : Task).toResponse,
        List.mem_append.mpr (Or.inr (List.mem_singleton.mpr rfl)),
        (findTask_pred hfc3).2.2, rfl⟩
  · rw [if_neg hic]
    have hcomp : c3.isComplete = true := by
      cases hcb : c3.isComplete with
      | false => rw [hcb] at hic; exact absurd rfl hic
      | true => rfl
    have hent := hfold.2 c3 hfc3 hcomp
    cases c3.parentId with
    | none => exact hent
    | some p => dsimp only; exact hent

theorem ctVisit_push_entry {g now m : Nat} {s : State}
    (tid : String) {t c : Task}
    (hft : findTask s g tid = some t) (hc : c ∈ childrenAll s g tid)
    (hfc : findTask s g c.id = some c)
    (acc : State × List TaskResponse × List String)
    (h : CtP g now s acc ∧ CompEntry g c.id acc) :
    HasEntry c.id (ctVisit g now true (m + 1 + 1) tid acc) := by
  obtain ⟨s1, upd, ps⟩ := acc
  obtain ⟨n, hn⟩ : ∃ n, n = m + 1 := ⟨m + 1, rfl⟩
  rw [← hn]
  have hco : ∀ a b2, CtRel now a b2 →
      (a.goalId == g && a.id == tid) = (b2.goalId == g && b2.id == tid) := by
    intro a b2 hab; rw [hab.1.1, hab.1.2.1]
  obtain ⟨t1, ht1, hrelt⟩ := find?_rel hco h.1.1 hft
  have hft1 : findTask s1 g tid = some t1 := ht1
  simp only [ctVisit, hft1]
  simp only [if_true]
  have hcm := List.mem_filter.mp hc
  have hcp : c.goalId = g ∧ c.parentId = some tid := by
    have h3 := hcm.2
    simp only [Bool.and_eq_true, beq_iff_eq] at h3
    exact h3
  obtain ⟨c1, hc1mem, hrelc⟩ := forall₂_mem_left h.1.1 hcm.1
  have hc1in : c1 ∈ childrenAll s1 g tid := by
    refine List.mem_filter.mpr ⟨hc1mem, ?_⟩
    simp only [Bool.and_eq_true, beq_iff_eq]
    exact ⟨hrelc.1.2.1 ▸ hcp.1, hrelc.1.2.2.1 ▸ hcp.2⟩
  have hkid : c1.id ∈ (childrenAll s1 g tid).map Task.id :=
    List.mem_map_of_mem Task.id hc1in
  have hfold : HasEntry c.id (((childrenAll s1 g tid).map Task.id).foldl
      (fun a k => ctVisit g now true n k a) (s1, upd, ps)) := by
    refine foldl_visit
      (P := HasEntry c.id)
      (Q := fun a => CtP g now s a ∧ CompEntry g c.id a) _ c1.id hkid
      (fun b x hx hb => ⟨ctVisit_P n x b hb.1, ctVisit_Pc n x b hb.2⟩)
      (fun b x hx hb => ctVisit_hasEntry_mono n x b hb)
      ?_ _ h
    intro b2 hb2
    rw [show c1.id = c.id from (hrelc.1.1).symm, hn]
    exact ctVisit_completes m b2 hb2 hfc
  set acc2 := ((childrenAll s1 g tid).map Task.id).foldl
      (fun a k => ctVisit g now true n k a) (s1, upd, ps) with hacc2
  cases hft2 : findTask acc2.1 g tid with
  | none => exact hfold
  | some t2 =>
    dsimp only
    by_cases hic : (!t2.isComplete) = true
    · rw [if_pos hic]
      obtain ⟨r, hr, hp⟩ := hfold
      cases t2.parentId with
      | none => exact ⟨r, List.mem_append.mpr (Or.inl hr), hp⟩
      | some p =>
        dsimp only
        exact ⟨r, List.mem_append.mpr (Or.inl hr), hp⟩
    · rw [if_neg hic]
      cases t2.parentId with
      | none => exact hfold
      | some p => dsimp only; exact hfold

theorem reach_stC10 : Reachable stC10 :=
  .step reach_sA3
    (.remove sA3 1 ["1.1"] true 4
      (getOk (removeTasks sA3 1 ["1.1"] true 4) dfltRm) rfl)

/-- C10 counterexample: in the reachable state `stC10` the task `"1.1"` is
a soft-deleted, not-yet-complete direct descendant of the requested task
`"1"`; `completeTasksStatus` with `completeChildren` reports it in
`updatedTasks` with `isComplete = true`, yet in the returned state its
record is incomplete again: the parent-recheck pass flipped it back. -/
theorem claim_C10_counterexample :
    (findTask stC10 1 "1.1").map (fun t => (t.parentId, t.deleted, t.isComplete))
      = some (some "1", true, false) ∧
    runC10.2.1.map (fun r => (r.id, r.isComplete)) =
      [("1.1.1", true), ("1.1", true), ("1", true)] ∧
    (findTask runC10.1 1 "1.1").map Task.isComplete = some false :=
  ⟨rfl, rfl, rfl⟩

/-- C10 amended: with `completeChildren = true` the traversal of
`completeTasksStatus` enumerates each visited task's direct children
without excluding soft-deleted ones, so every not-yet-complete direct
child of a requested existing task — soft-deleted or not — is completed
during the traversal and reported in the returned `updatedTasks` with
`isComplete = true`; the final state, however, need not keep the record
complete, because the parent-recheck pass can flip a deleted intermediate
descendant back to incomplete (see the counterexample). -/
theorem claim_C10_amended {s : State} {g : Nat} {ids : List String}
    {now : Nat} {out : State × List TaskResponse × List TaskResponse}
    (hinv : Inv s) (hok : completeTasksStatus s g ids true now = .ok out)
    {tid : String} (htid : tid ∈ ids) {t : Task}
    (hft : findTask s g tid = some t)
    {c : Task} (hc : c ∈ childrenAll s g tid) (hcinc : c.isComplete = false) :
    ∃ r ∈ out.2.1, r.id = c.id ∧ r.isComplete = true := by
  obtain ⟨hpl, hq⟩ := completeTasksStatus_ok hok
  subst hq
  dsimp only
  have hcm := List.mem_filter.mp hc
  have hcp : c.goalId = g ∧ c.parentId = some tid := by
    have h3 := hcm.2
    simp only [Bool.and_eq_true, beq_iff_eq] at h3
    exact h3
  have hfc : findTask s g c.id = some c := by
    cases hfind : findTask s g c.id with
    | none =>
      exfalso
      have h4 := List.find?_eq_none.mp hfind c hcm.1
      simp [hcp.1] at h4
    | some c2 =>
      have hceq : c2 = c := inv_unique hinv (findTask_pred hfind).1 hcm.1
        ((findTask_pred hfind).2.1.trans hcp.1.symm) (findTask_pred hfind).2.2
      rw [hceq]
  have h2 : s.tasks.length + 1 = s.tasks.length - 1 + 1 + 1 := by
    have h3 : 0 < s.tasks.length :=
      List.length_pos.mpr (List.ne_nil_of_mem hcm.1)
    omega
  rw [h2]
  refine foldl_visit
    (P := HasEntry c.id)
    (Q := fun a => CtP g now s a ∧ CompEntry g c.id a) _ tid htid
    (fun b x hx hb => ⟨ctVisit_P _ x b hb.1, ctVisit_Pc _ x b hb.2⟩)
    (fun b x hx hb => ctVisit_hasEntry_mono _ x b hb)
    ?_ _ ⟨ctP_start g now s, ?_⟩
  · intro b hb
    exact ctVisit_push_entry tid hft hc hfc b hb
  · intro x hx hxc
    exfalso
    have hx2 : findTask s g c.id = some x := hx
    rw [hfc] at hx2
    cases Option.some.inj hx2
    rw [hcinc] at hxc
    exact Bool.noConfusion hxc

theorem claim_C10_amended_witness :
    ∃ r ∈ runC10.2.1, r.id = "1.1" ∧ r.isComplete = true := by
  have hh := claim_C10_amended
    (t := (⟨"1", 1, none, "a", "a", false, false, 1, 1⟩ : Task))
    (c := (⟨"1.1", 1, some "1", "b", "b", false, true, 2, 4⟩ : Task))
    (reachable_inv reach_stC10)
    (show completeTasksStatus stC10 1 ["1"] true 5 = .ok runC10 from rfl)
    (List.mem_singleton.mpr rfl)
    (by decide) (by decide) rfl
  exact hh

end TaskOrch